import Mathlib

/-!
Verification development for the categorical-value normalisation and clustering
engine of the interview dashboard.

Embedded source files:
* `dashboard/data_normaliser.py` — `DataNormaliser.clean_text`,
  `similarity_ratio`, `apply_direct_mappings`, `cluster_similar_values`,
  `normalise_field_values`.
* `dashboard/student_data_normaliser.py` — the richer variant of the same
  class, plus `generate_stats_with_normalised_values` (document update
  payloads).
* `dashboard/data_summary.py`, `dashboard/student_data_summary.py`,
  `dashboard/thematic_analytics.py` — the three `get_percentage_range`
  variants.

Embedding conventions:
* Python strings are `List Char` / `String`; only the ASCII behaviour of
  `str.lower`, `str.upper`, and of the regex classes `\w` (alphanumeric or
  underscore) and `\s` (space, tab, newline, carriage return, vertical tab,
  form feed) is modelled, matching the ASCII survey data the program
  processes.
* Python floats are modelled as `ℚ`; every float computed by the embedded
  code paths (difflib ratios `2*M/T`, integer percentages) is exact in IEEE
  double precision, so no rounding behaviour is lost.
* Python values that may be `None`, strings, booleans, lists or dicts are the
  inductive `PyVal`; `dict` is an insertion-ordered association list with
  overwrite-on-assignment semantics.
* The handful of fixed regular expressions used by the source are embedded as
  hand-written matchers over `List Char`, with a fuel-driven scan-and-replace
  engine reproducing the left-to-right, non-overlapping semantics of
  `re.sub`, and an existence scan reproducing `re.search`. Each matcher
  consumes at least one character, and fuel equal to the text length makes
  the engine total.
* `difflib.SequenceMatcher` (with `isjunk=None`, `autojunk=True`, as the
  source constructs it) is embedded in full: the `b2j` index with the
  autojunk popular-entry purge, the `find_longest_match` dynamic programme
  with its extension loops, and the `get_matching_blocks` recursion. With
  `isjunk=None` the junk set is empty, so the junk extension loops of
  `find_longest_match` never fire and are omitted.
-/

namespace Spec2Proof

/-! ## Character classes (ASCII model of Python `\w`, `\s`, `str.lower`) -/

/-- Model of the regex class `\w` on ASCII text: alphanumeric or underscore. -/
def isWordChar (c : Char) : Bool := c.isAlphanum || c = '_'

/-- Model of the regex class `\s` on ASCII text. -/
def isSpChar (c : Char) : Bool :=
  c = ' ' || c = '\t' || c = '\n' || c = '\x0d' || c = '\x0b' || c = '\x0c'

/-! ## Python value model -/

/-- Model of the Python values that flow through the normaliser: `None`,
booleans, strings, lists of strings (the `subjects` / `course_types` payload
fields), and insertion-ordered dicts (documents). A dict is represented as a
spine of `vDictCons` bindings terminated by `vDictNil`, avoiding a nested
inductive so that equality is structurally decidable. -/
inductive PyVal where
  | vNone : PyVal
  | vBool (b : Bool) : PyVal
  | vStr (s : String) : PyVal
  | vStrList (xs : List String) : PyVal
  | vDictNil : PyVal
  | vDictCons (k : String) (v : PyVal) (rest : PyVal) : PyVal
deriving DecidableEq, Repr

/-- Build a dict value from a list of bindings. -/
def pyDict : List (String × PyVal) → PyVal
  | [] => .vDictNil
  | (k, v) :: rest => .vDictCons k v (pyDict rest)

/-- Model of `isinstance(value, dict)`. -/
def isDict : PyVal → Bool
  | .vDictNil => true
  | .vDictCons _ _ _ => true
  | _ => false

/-- Python truthiness for the modelled values. -/
def truthy : PyVal → Bool
  | .vNone => false
  | .vBool b => b
  | .vStr s => !(s == "")
  | .vStrList xs => !xs.isEmpty
  | .vDictNil => false
  | .vDictCons _ _ _ => true

/-- Python dict lookup (`d[k]` / `k in d`): the binding for the key, if any
(keys are unique in a well-formed dict; the first binding governs). -/
def dictGet (k : String) : PyVal → Option PyVal
  | .vDictCons k' v rest => if k' = k then some v else dictGet k rest
  | _ => none

/-- Python dict assignment `d[k] = v`: overwrite the existing binding in
place, else append a new binding at the end. -/
def dictSet (k : String) (v : PyVal) : PyVal → PyVal
  | .vDictCons k' v' rest =>
    if k' = k then .vDictCons k v rest else .vDictCons k' v' (dictSet k v rest)
  | _ => .vDictCons k v .vDictNil

/-! ## Regex engine for the fixed patterns of `clean_text`

A matcher receives the character preceding the current position (for `\b`
word boundaries) and the rest of the text, and returns the length of the
match beginning at the current position, if any. All matchers used here
return lengths of at least 1. -/

/-- Matcher type for the embedded regular expressions. -/
def Matcher : Type := Option Char → List Char → Option Nat

/-- Word boundary `\b` before a word character: the previous character is
absent or not a word character. -/
def boundaryBefore : Option Char → Bool
  | none => true
  | some c => !isWordChar c

/-- Word boundary `\b` after a word character: the next character is absent
or not a word character. -/
def boundaryAfter : List Char → Bool
  | [] => true
  | c :: _ => !isWordChar c

/-- Match a literal character sequence, returning the remaining text. -/
def matchLit : List Char → List Char → Option (List Char)
  | [], rest => some rest
  | _ :: _, [] => none
  | p :: ps, c :: cs => if c = p then matchLit ps cs else none

/-- Model of `re.sub(pattern, repl, text)` for patterns that always consume at
least one character: scan left to right, replace non-overlapping matches,
resume after each match end (word boundaries of later matches are judged
against the original text, as `re` does). Fuel equal to the text length
suffices since every step consumes at least one character. -/
def reSubAux (m : Matcher) (repl : List Char) : Nat → Option Char → List Char → List Char
  | 0, _, l => l
  | _ + 1, _, [] => []
  | fuel + 1, prev, c :: cs =>
    match m prev (c :: cs) with
    | some (n + 1) =>
      repl ++ reSubAux m repl fuel (some ((c :: cs).getD n c)) ((c :: cs).drop (n + 1))
    | some 0 => c :: reSubAux m repl fuel (some c) cs
    | none => c :: reSubAux m repl fuel (some c) cs

/-- Entry point of the `re.sub` model. -/
def pyReSub (m : Matcher) (repl : List Char) (l : List Char) : List Char :=
  reSubAux m repl l.length none l

/-- Scan for the first `]`, failing at a newline (the `.` of the non-greedy
`.*?]` does not match newlines); returns the number of characters consumed
including the `]`. -/
def scanCloseBracket : List Char → Option Nat
  | [] => none
  | c :: cs =>
    if c = ']' then some 1
    else if c = '\n' then none
    else (scanCloseBracket cs).map (· + 1)

/-- Matcher for `\[redacted:.*?\]` (case-sensitive, no boundaries). -/
def matchRedacted : Matcher := fun _ l =>
  match matchLit ('[' :: "redacted:".data) l with
  | none => none
  | some rest => (scanCloseBracket rest).map (fun n => 10 + n)

/-- Matcher for `\b<word>\b` where the literal starts and ends with word
characters (all the word literals used by the source do). -/
def matchWordLit (w : List Char) : Matcher := fun prev l =>
  if boundaryBefore prev then
    match matchLit w l with
    | none => none
    | some rest => if boundaryAfter rest then some w.length else none
  else none

/-- Matcher for `\b<word>s?\b`: the greedy optional `s` with the trailing
boundary check. Trying the `s` first and falling back is equivalent to the
backtracking of `re` because a rejected `s` leaves a word character adjacent
to the shorter match as well. -/
def matchWordLitOptS (w : List Char) : Matcher := fun prev l =>
  if boundaryBefore prev then
    match matchLit w l with
    | none => none
    | some rest =>
      match rest with
      | 's' :: rest' =>
        if boundaryAfter rest' then some (w.length + 1)
        else if boundaryAfter rest then some w.length else none
      | _ => if boundaryAfter rest then some w.length else none
  else none

/-- Matcher for `\blevel\s+\d+\b`. Greedy `\s+` and `\d+` with a final
boundary check are equivalent to maximal munch: a shorter digit run would be
followed by a digit, which is a word character, so the boundary would fail
anyway. -/
def matchLevelNum : Matcher := fun prev l =>
  if boundaryBefore prev then
    match matchLit "level".data l with
    | none => none
    | some rest =>
      let sp := rest.takeWhile isSpChar
      if sp.isEmpty then none
      else
        let rest' := rest.drop sp.length
        let dg := rest'.takeWhile Char.isDigit
        if dg.isEmpty then none
        else if boundaryAfter (rest'.drop dg.length) then
          some (5 + sp.length + dg.length)
        else none
  else none

/-- Matcher for `\bX-levels?\b` (used with `X = a` and `X = t`). -/
def matchHyphenLevels (x : Char) : Matcher := fun prev l =>
  if boundaryBefore prev then
    match matchLit [x, '-', 'l', 'e', 'v', 'e', 'l'] l with
    | none => none
    | some rest =>
      match rest with
      | 's' :: rest' =>
        if boundaryAfter rest' then some 8
        else if boundaryAfter rest then some 7 else none
      | _ => if boundaryAfter rest then some 7 else none
  else none

/-! ## The cleaning pipeline (`DataNormaliser.clean_text`) -/

/-- The `category_patterns` table of both normaliser variants (they are
identical): substitution rules per category, applied in registration
order. -/
def category_patterns : List (String × List (Matcher × List Char)) :=
  [("college", [(matchWordLit "college".data, "college".data),
                (matchWordLit "campus".data, [])]),
   ("subject", [(matchLevelNum, []),
                (matchWordLit "btec".data, []),
                (matchHyphenLevels 'a', []),
                (matchHyphenLevels 't', [])])]

/-- Apply the category-specific rules of `clean_text` (a no-op when the
category is absent or unregistered). -/
def applyCategoryPatterns (category : Option String) (l : List Char) : List Char :=
  match category with
  | none => l
  | some cat =>
    match category_patterns.lookup cat with
    | none => l
    | some rules => rules.foldl (fun t rule => pyReSub rule.1 rule.2 t) l

/-- Model of `re.sub(r'[^\w\s]', ' ', text)`: replace every character that is
neither a word character nor whitespace by a space. -/
def stripChar (c : Char) : Char :=
  if isWordChar c || isSpChar c then c else ' '

/-- Maximal runs of non-whitespace characters (the accumulator holds the
current run reversed). -/
def wsSplitAux : List Char → List Char → List (List Char)
  | acc, [] => if acc.isEmpty then [] else [acc.reverse]
  | acc, c :: cs =>
    if isSpChar c then
      if acc.isEmpty then wsSplitAux [] cs
      else acc.reverse :: wsSplitAux [] cs
    else wsSplitAux (c :: acc) cs

/-- Split a character list into its maximal whitespace-free runs. -/
def wsSplit (l : List Char) : List (List Char) := wsSplitAux [] l

/-- Join character runs with single spaces (`' '.join`). -/
def joinSp : List (List Char) → List Char
  | [] => []
  | [p] => p
  | p :: q :: rest => p ++ ' ' :: joinSp (q :: rest)

/-- Model of `re.sub(r'\s+', ' ', text).strip()`: collapse whitespace runs to
single spaces and trim. -/
def collapseWS (l : List Char) : List Char := joinSp (wsSplit l)

/-- Embedding of `DataNormaliser.clean_text` (identical in both variants):
empty, `None` or non-string input yields the sentinel `"Unknown"`; otherwise
remove `[redacted: ...]` markers, lowercase, apply the category rules, map
special characters to spaces, collapse whitespace and trim. -/
def clean_text (text : PyVal) (category : Option String) : String :=
  match text with
  | .vStr s =>
    if s = "" then "Unknown"
    else
      let t1 := pyReSub matchRedacted [] s.data
      let t2 := t1.map Char.toLower
      let t3 := applyCategoryPatterns category t2
      let t4 := t3.map stripChar
      String.mk (collapseWS t4)
  | _ => "Unknown"

/-- Cleaning applied to a plain string input. -/
def cleanStr (s : String) (category : Option String) : String :=
  clean_text (.vStr s) category

/-! ## Display formatting -/

/-- Model of Python `str.capitalize` (ASCII): first character uppercased,
remainder lowercased. -/
def pyCapitalize : List Char → List Char
  | [] => []
  | c :: cs => c.toUpper :: cs.map Char.toLower

/-- Model of `' '.flatten(word.capitalize() for word in s.split())`, the display
formatting used for canonical labels. -/
def titleCase (s : String) : String :=
  String.mk (joinSp ((wsSplit s.data).map pyCapitalize))

/-! ## Percentage bucketing (`get_percentage_range`, three variants) -/

/-- Embedding of `get_percentage_range` from `dashboard/data_summary.py`. -/
def get_percentage_range (percentage : ℚ) : String :=
  if percentage < 15 then "under 15%"
  else if percentage ≤ 30 then "15-30%"
  else if percentage ≤ 70 then "30-70%"
  else if percentage ≤ 85 then "71-85%"
  else "over 85%"

/-- Embedding of `get_percentage_range` from
`dashboard/student_data_summary.py`, which splits the middle bucket at 50. -/
def student_get_percentage_range (percentage : ℚ) : String :=
  if percentage < 15 then "under 15%"
  else if percentage ≤ 30 then "15-30%"
  else if percentage ≤ 50 then "30-50%"
  else if percentage ≤ 70 then "50-70%"
  else if percentage ≤ 85 then "71-85%"
  else "over 85%"

/-- Embedding of the local `get_percentage_range` of
`format_keyword_analysis_markdown` in `dashboard/thematic_analytics.py`. -/
def thematic_get_percentage_range (percentage : ℚ) : String :=
  if percentage < 15 then "under 15%"
  else if percentage ≤ 30 then "15-30%"
  else if percentage ≤ 70 then "30-70%"
  else if percentage ≤ 85 then "71-85%"
  else "over 85%"

/-! ## Greedy clustering (`DataNormaliser.cluster_similar_values`, the
clustering loop shared verbatim by both variants)

The loop operates on `sorted_values`, the distinct cleaned values in
descending frequency order, with a growing `assigned` set. -/

/-- Inner scan of the clustering loop: for a fixed seed `v1`, walk the whole
sorted value list, adding every still-unassigned, non-`"Unknown"` value whose
similarity to the seed exceeds the threshold (`sim v1 v2 = true`). -/
def innerScan (sim : String → String → Bool) (v1 : String) :
    List String → List String → List String → List String × List String
  | [], cluster, assigned => (cluster, assigned)
  | v2 :: rest, cluster, assigned =>
    if v2 ∈ assigned ∨ v2 = "Unknown" then innerScan sim v1 rest cluster assigned
    else if sim v1 v2 then innerScan sim v1 rest (cluster ++ [v2]) (v2 :: assigned)
    else innerScan sim v1 rest cluster assigned

/-- Outer scan of the clustering loop: each still-unassigned, non-`"Unknown"`
value seeds a new cluster, which the inner scan then fills. The source's
`if cluster:` guard is omitted because a cluster always contains its seed. -/
def outerScan (sim : String → String → Bool) (allVals : List String) :
    List String → List (List String) → List String → List (List String)
  | [], clusters, _ => clusters
  | v1 :: rest, clusters, assigned =>
    if v1 ∈ assigned ∨ v1 = "Unknown" then outerScan sim allVals rest clusters assigned
    else
      let p := innerScan sim v1 allVals [v1] (v1 :: assigned)
      outerScan sim allVals rest (clusters ++ [p.1]) p.2

/-- The clusters built by `cluster_similar_values` from the sorted distinct
value list. -/
def makeClusters (sim : String → String → Bool) (svs : List String) : List (List String) :=
  outerScan sim svs svs [] []

/-- First-occurrence deduplication (models the index of a pandas
`value_counts`, which lists each distinct value once). -/
def dedupFirstAux : List String → List String → List String
  | _, [] => []
  | seen, x :: xs =>
    if x ∈ seen then dedupFirstAux seen xs
    else x :: dedupFirstAux (x :: seen) xs

/-- Distinct values of a list, first occurrences first. -/
def dedupFirst (l : List String) : List String := dedupFirstAux [] l

/-- Model of `list(pd.Series(cleaned).value_counts().index)`: the distinct
values sorted by descending frequency. pandas leaves the relative order of
equal-frequency values unspecified; the model uses a stable sort (ties in
first-occurrence order). Every property proved below that depends on
`sortedValues` depends only on its membership and distinctness, or is
evaluated on batches with pairwise distinct frequencies, so this choice is
inessential. -/
def sortedValues (cleaned : List String) : List String :=
  (dedupFirst cleaned).insertionSort (fun a b => cleaned.count b ≤ cleaned.count a)

theorem dedupFirstAux_mem (x : String) :
    ∀ (l seen : List String), x ∈ dedupFirstAux seen l ↔ x ∈ l ∧ x ∉ seen
  | [], seen => by simp [dedupFirstAux]
  | y :: ys, seen => by
    by_cases h : y ∈ seen
    · rw [dedupFirstAux, if_pos h, dedupFirstAux_mem x ys seen]
      constructor
      · exact fun hx => ⟨List.mem_cons_of_mem _ hx.1, hx.2⟩
      · rintro ⟨hx, hns⟩
        rcases List.mem_cons.mp hx with rfl | hx
        · exact absurd h hns
        · exact ⟨hx, hns⟩
    · rw [dedupFirstAux, if_neg h]
      by_cases hxy : x = y
      · subst hxy; simp [h]
      · rw [List.mem_cons, dedupFirstAux_mem x ys (y :: seen)]
        constructor
        · rintro (rfl | ⟨hx, hns⟩)
          · exact absurd rfl hxy
          · exact ⟨List.mem_cons_of_mem _ hx, fun hh => hns (List.mem_cons_of_mem _ hh)⟩
        · rintro ⟨hx, hns⟩
          rcases List.mem_cons.mp hx with rfl | hx
          · exact absurd rfl hxy
          · exact Or.inr ⟨hx, fun hh => hns (by
              rcases List.mem_cons.mp hh with rfl | hh
              · exact absurd rfl hxy
              · exact hh)⟩

theorem dedupFirstAux_nodup :
    ∀ (l seen : List String), (dedupFirstAux seen l).Nodup
  | [], _ => List.nodup_nil
  | y :: ys, seen => by
    by_cases h : y ∈ seen
    · rw [dedupFirstAux, if_pos h]; exact dedupFirstAux_nodup ys seen
    · rw [dedupFirstAux, if_neg h]
      refine List.nodup_cons.mpr ⟨fun hy => ?_, dedupFirstAux_nodup ys (y :: seen)⟩
      exact ((dedupFirstAux_mem y ys (y :: seen)).mp hy).2 (List.mem_cons_self _ _)

theorem sortedValues_perm (cleaned : List String) :
    (sortedValues cleaned).Perm (dedupFirst cleaned) :=
  List.perm_insertionSort _ _

theorem sortedValues_nodup (cleaned : List String) : (sortedValues cleaned).Nodup :=
  (sortedValues_perm cleaned).nodup_iff.mpr (dedupFirstAux_nodup cleaned [])

theorem sortedValues_mem (cleaned : List String) (x : String) :
    x ∈ sortedValues cleaned ↔ x ∈ cleaned := by
  rw [(sortedValues_perm cleaned).mem_iff, dedupFirst, dedupFirstAux_mem]
  simp

theorem innerScan_spec (sim : String → String → Bool) (v1 : String) :
    ∀ (l cluster assigned : List String), cluster.Nodup → (∀ x ∈ cluster, x ∈ assigned) →
      (innerScan sim v1 l cluster assigned).1.Nodup ∧
      (∃ extra, (innerScan sim v1 l cluster assigned).1 = cluster ++ extra ∧
        ∀ x ∈ extra, x ∈ l ∧ x ∉ assigned ∧ x ≠ "Unknown" ∧ sim v1 x = true) ∧
      (∀ x, x ∈ (innerScan sim v1 l cluster assigned).2 ↔
        x ∈ assigned ∨ x ∈ (innerScan sim v1 l cluster assigned).1)
  | [], cluster, assigned, hnd, hsub => by
    rw [innerScan]
    exact ⟨hnd, ⟨[], by simp, by simp⟩, fun x => ⟨Or.inl, fun h => h.elim id (hsub x)⟩⟩
  | v2 :: rest, cluster, assigned, hnd, hsub => by
    by_cases hskip : v2 ∈ assigned ∨ v2 = "Unknown"
    · rw [innerScan, if_pos hskip]
      obtain ⟨h1, ⟨extra, he, hex⟩, h3⟩ := innerScan_spec sim v1 rest cluster assigned hnd hsub
      exact ⟨h1, ⟨extra, he, fun x hx => ⟨List.mem_cons_of_mem _ (hex x hx).1,
        (hex x hx).2.1, (hex x hx).2.2⟩⟩, h3⟩
    · obtain ⟨hv2a, hv2u⟩ := not_or.mp hskip
      by_cases hsim : sim v1 v2 = true
      · rw [innerScan, if_neg hskip, if_pos hsim]
        have hnd' : (cluster ++ [v2]).Nodup := by
          refine List.nodup_append.mpr ⟨hnd, List.nodup_singleton _, fun x hx hx2 => ?_⟩
          rw [List.mem_singleton] at hx2
          exact hv2a (hx2 ▸ hsub x hx)
        have hsub' : ∀ x ∈ cluster ++ [v2], x ∈ v2 :: assigned := by
          intro x hx
          rcases List.mem_append.mp hx with hx | hx
          · exact List.mem_cons_of_mem _ (hsub x hx)
          · rw [List.mem_singleton] at hx; exact hx ▸ List.mem_cons_self _ _
        obtain ⟨h1, ⟨extra, he, hex⟩, h3⟩ :=
          innerScan_spec sim v1 rest (cluster ++ [v2]) (v2 :: assigned) hnd' hsub'
        have hv2mem : v2 ∈ (innerScan sim v1 rest (cluster ++ [v2]) (v2 :: assigned)).1 := by
          rw [he]; exact List.mem_append_left _ (List.mem_append_right _ (List.mem_singleton_self _))
        refine ⟨h1, ⟨v2 :: extra, by rw [he, List.append_assoc]; rfl, ?_⟩, fun x => ?_⟩
        · intro x hx
          rcases List.mem_cons.mp hx with rfl | hx
          · exact ⟨List.mem_cons_self _ _, hv2a, hv2u, hsim⟩
          · exact ⟨List.mem_cons_of_mem _ (hex x hx).1,
              fun h => (hex x hx).2.1 (List.mem_cons_of_mem _ h),
              (hex x hx).2.2⟩
        · rw [h3 x]
          constructor
          · rintro (hx | hx)
            · rcases List.mem_cons.mp hx with rfl | hx
              · exact Or.inr hv2mem
              · exact Or.inl hx
            · exact Or.inr hx
          · rintro (hx | hx)
            · exact Or.inl (List.mem_cons_of_mem _ hx)
            · exact Or.inr hx
      · rw [innerScan, if_neg hskip, if_neg hsim]
        obtain ⟨h1, ⟨extra, he, hex⟩, h3⟩ := innerScan_spec sim v1 rest cluster assigned hnd hsub
        exact ⟨h1, ⟨extra, he, fun x hx => ⟨List.mem_cons_of_mem _ (hex x hx).1,
          (hex x hx).2.1, (hex x hx).2.2⟩⟩, h3⟩

theorem outerScan_spec (sim : String → String → Bool) (allVals : List String) :
    ∀ (l : List String) (clusters : List (List String)) (assigned : List String),
      clusters.flatten.Nodup →
      (∀ x, x ∈ assigned ↔ x ∈ clusters.flatten) →
      (∀ x ∈ clusters.flatten, x ≠ "Unknown") →
      (∀ cl ∈ clusters, ∃ s r, cl = s :: r ∧ s ≠ "Unknown" ∧ ∀ x ∈ r, sim s x = true) →
      (outerScan sim allVals l clusters assigned).flatten.Nodup ∧
      (∀ x ∈ (outerScan sim allVals l clusters assigned).flatten,
          x ∈ clusters.flatten ∨ ((x ∈ l ∨ x ∈ allVals) ∧ x ≠ "Unknown")) ∧
      (∀ x ∈ l, x ≠ "Unknown" → x ∈ (outerScan sim allVals l clusters assigned).flatten) ∧
      (∀ x ∈ clusters.flatten, x ∈ (outerScan sim allVals l clusters assigned).flatten) ∧
      (∀ x ∈ (outerScan sim allVals l clusters assigned).flatten, x ≠ "Unknown") ∧
      (∀ cl ∈ outerScan sim allVals l clusters assigned,
        ∃ s r, cl = s :: r ∧ s ≠ "Unknown" ∧ ∀ x ∈ r, sim s x = true)
  | [], clusters, assigned, h1, _, h3, h4 => by
    rw [outerScan]
    exact ⟨h1, fun x hx => Or.inl hx, fun x hx => absurd hx (List.not_mem_nil x),
      fun x hx => hx, h3, h4⟩
  | v1 :: rest, clusters, assigned, h1, h2, h3, h4 => by
    by_cases hskip : v1 ∈ assigned ∨ v1 = "Unknown"
    · rw [outerScan, if_pos hskip]
      obtain ⟨g1, g2, g3, g4, g5, g6⟩ :=
        outerScan_spec sim allVals rest clusters assigned h1 h2 h3 h4
      refine ⟨g1, fun x hx => ?_, fun x hx hxu => ?_, g4, g5, g6⟩
      · rcases g2 x hx with hx | hx
        · exact Or.inl hx
        · exact Or.inr ⟨hx.1.elim (fun h => Or.inl (List.mem_cons_of_mem _ h)) Or.inr, hx.2⟩
      · rcases List.mem_cons.mp hx with rfl | hx
        · rcases hskip with hv | hv
          · exact g4 x ((h2 x).mp hv)
          · exact absurd hv hxu
        · exact g3 x hx hxu
    · obtain ⟨hv1a, hv1u⟩ := not_or.mp hskip
      rw [outerScan, if_neg hskip]
      obtain ⟨i1, ⟨extra, hie, hex⟩, i3⟩ :=
        innerScan_spec sim v1 allVals [v1] (v1 :: assigned) (List.nodup_singleton _)
          (fun x hx => by rw [List.mem_singleton] at hx; exact hx ▸ List.mem_cons_self _ _)
      set p := innerScan sim v1 allVals [v1] (v1 :: assigned) with hp
      have hjoin2 : (clusters ++ [p.1]).flatten = clusters.flatten ++ p.1 := by
        rw [List.flatten_append]; simp
      have hv1p : v1 ∈ p.1 := by rw [hie]; exact List.mem_append_left _ (List.mem_singleton_self _)
      have hp1new : ∀ x ∈ p.1, x ∉ assigned := by
        intro x hx
        rw [hie] at hx
        rcases List.mem_append.mp hx with hx | hx
        · rw [List.mem_singleton] at hx; exact hx ▸ hv1a
        · exact fun h => (hex x hx).2.1 (List.mem_cons_of_mem _ h)
      have hp1u : ∀ x ∈ p.1, x ≠ "Unknown" := by
        intro x hx
        rw [hie] at hx
        rcases List.mem_append.mp hx with hx | hx
        · rw [List.mem_singleton] at hx; exact hx ▸ hv1u
        · exact (hex x hx).2.2.1
      have k1 : (clusters ++ [p.1]).flatten.Nodup := by
        rw [hjoin2]
        refine List.nodup_append.mpr ⟨h1, i1, fun x hx hx2 => ?_⟩
        exact hp1new x hx2 ((h2 x).mpr hx)
      have k2 : ∀ x, x ∈ p.2 ↔ x ∈ (clusters ++ [p.1]).flatten := by
        intro x
        rw [i3 x, hjoin2, List.mem_append]
        constructor
        · rintro (hx | hx)
          · rcases List.mem_cons.mp hx with rfl | hx
            · exact Or.inr hv1p
            · exact Or.inl ((h2 x).mp hx)
          · exact Or.inr hx
        · rintro (hx | hx)
          · exact Or.inl (List.mem_cons_of_mem _ ((h2 x).mpr hx))
          · exact Or.inr hx
      have k3 : ∀ x ∈ (clusters ++ [p.1]).flatten, x ≠ "Unknown" := by
        intro x hx
        rw [hjoin2] at hx
        rcases List.mem_append.mp hx with hx | hx
        · exact h3 x hx
        · exact hp1u x hx
      have k4 : ∀ cl ∈ clusters ++ [p.1],
          ∃ s r, cl = s :: r ∧ s ≠ "Unknown" ∧ ∀ x ∈ r, sim s x = true := by
        intro cl hcl
        rcases List.mem_append.mp hcl with hcl | hcl
        · exact h4 cl hcl
        · rw [List.mem_singleton] at hcl
          exact hcl ▸ ⟨v1, extra, hie, hv1u, fun x hx => (hex x hx).2.2.2⟩
      obtain ⟨g1, g2, g3, g4, g5, g6⟩ :=
        outerScan_spec sim allVals rest (clusters ++ [p.1]) p.2 k1 k2 k3 k4
      refine ⟨g1, fun x hx => ?_, fun x hx hxu => ?_, fun x hx => ?_, g5, g6⟩
      · rcases g2 x hx with hx | hx
        · rw [hjoin2] at hx
          rcases List.mem_append.mp hx with hx | hx
          · exact Or.inl hx
          · rw [hie] at hx
            rcases List.mem_append.mp hx with hx | hx
            · rw [List.mem_singleton] at hx
              exact Or.inr ⟨Or.inl (hx ▸ List.mem_cons_self _ _), hx ▸ hv1u⟩
            · exact Or.inr ⟨Or.inr (hex x hx).1, (hex x hx).2.2.1⟩
        · exact Or.inr ⟨hx.1.elim (fun h => Or.inl (List.mem_cons_of_mem _ h)) Or.inr, hx.2⟩
      · rcases List.mem_cons.mp hx with rfl | hx
        · exact g4 x (by rw [hjoin2]; exact List.mem_append_right _ hv1p)
        · exact g3 x hx hxu
      · exact g4 x (by rw [hjoin2]; exact List.mem_append_left _ hx)

theorem makeClusters_join_nodup (sim : String → String → Bool) (svs : List String) :
    (makeClusters sim svs).flatten.Nodup :=
  (outerScan_spec sim svs svs [] [] (by simp) (by simp) (by simp) (by simp)).1

theorem mem_makeClusters_join (sim : String → String → Bool) (svs : List String) (x : String) :
    x ∈ (makeClusters sim svs).flatten ↔ x ∈ svs ∧ x ≠ "Unknown" := by
  obtain ⟨_, g2, g3, _, g5, _⟩ := outerScan_spec sim svs svs [] [] (by simp) (by simp)
    (by simp) (by simp)
  constructor
  · intro hx
    rcases g2 x hx with hx' | hx'
    · exact absurd hx' (List.not_mem_nil _)
    · exact ⟨hx'.1.elim id id, hx'.2⟩
  · exact fun hx => g3 x hx.1 hx.2

theorem makeClusters_shape (sim : String → String → Bool) (svs : List String) :
    ∀ cl ∈ makeClusters sim svs,
      ∃ s r, cl = s :: r ∧ s ≠ "Unknown" ∧ ∀ x ∈ r, sim s x = true :=
  (outerScan_spec sim svs svs [] [] (by simp) (by simp) (by simp) (by simp)).2.2.2.2.2

theorem makeClusters_cluster_nodup (sim : String → String → Bool) (svs : List String) :
    ∀ cl ∈ makeClusters sim svs, cl.Nodup :=
  fun cl hcl => ((List.nodup_flatten.mp (makeClusters_join_nodup sim svs)).1) cl hcl

/-- On a duplicate-free scan list the inner scan collects exactly the
unassigned, non-sentinel values similar to the seed, in scan order. -/
theorem innerScan_fst_eq_filter (sim : String → String → Bool) (v1 : String) :
    ∀ (l cluster assigned : List String), l.Nodup →
      (innerScan sim v1 l cluster assigned).1 = cluster ++
        l.filter (fun v => decide (v ∉ assigned ∧ v ≠ "Unknown" ∧ sim v1 v = true))
  | [], cluster, assigned, _ => by simp [innerScan]
  | v2 :: rest, cluster, assigned, hnd => by
    obtain ⟨hv2r, hndr⟩ := List.nodup_cons.mp hnd
    by_cases hskip : v2 ∈ assigned ∨ v2 = "Unknown"
    · rw [innerScan, if_pos hskip, innerScan_fst_eq_filter sim v1 rest cluster assigned hndr]
      have : (decide (v2 ∉ assigned ∧ v2 ≠ "Unknown" ∧ sim v1 v2 = true)) = false := by
        rcases hskip with h | h <;> simp [h]
      rw [List.filter_cons, this]
      simp
    · obtain ⟨hv2a, hv2u⟩ := not_or.mp hskip
      by_cases hsim : sim v1 v2 = true
      · rw [innerScan, if_neg hskip, if_pos hsim,
          innerScan_fst_eq_filter sim v1 rest (cluster ++ [v2]) (v2 :: assigned) hndr]
        have hpos : (decide (v2 ∉ assigned ∧ v2 ≠ "Unknown" ∧ sim v1 v2 = true)) = true := by
          simp [hv2a, hv2u, hsim]
        rw [List.filter_cons, hpos, List.append_assoc]
        have : rest.filter (fun v => decide (v ∉ v2 :: assigned ∧ v ≠ "Unknown" ∧
            sim v1 v = true)) = rest.filter (fun v => decide (v ∉ assigned ∧ v ≠ "Unknown" ∧
            sim v1 v = true)) := by
          apply List.filter_congr
          intro x hx
          have hxv2 : x ≠ v2 := fun h => hv2r (h ▸ hx)
          simp [List.mem_cons, hxv2]
        rw [this]
        rfl
      · rw [innerScan, if_neg hskip, if_neg hsim,
          innerScan_fst_eq_filter sim v1 rest cluster assigned hndr]
        have : (decide (v2 ∉ assigned ∧ v2 ≠ "Unknown" ∧ sim v1 v2 = true)) = false := by
          simp [hsim]
        rw [List.filter_cons, this]
        simp

theorem outerScan_prefix (sim : String → String → Bool) (allVals : List String) :
    ∀ (l : List String) (clusters : List (List String)) (assigned : List String),
      ∃ more, outerScan sim allVals l clusters assigned = clusters ++ more
  | [], clusters, assigned => ⟨[], by simp [outerScan]⟩
  | v1 :: rest, clusters, assigned => by
    by_cases hskip : v1 ∈ assigned ∨ v1 = "Unknown"
    · rw [outerScan, if_pos hskip]
      exact outerScan_prefix sim allVals rest clusters assigned
    · rw [outerScan, if_neg hskip]
      obtain ⟨more, hm⟩ := outerScan_prefix sim allVals rest
        (clusters ++ [(innerScan sim v1 allVals [v1] (v1 :: assigned)).1])
        (innerScan sim v1 allVals [v1] (v1 :: assigned)).2
      exact ⟨(innerScan sim v1 allVals [v1] (v1 :: assigned)).1 :: more, by
        rw [hm, List.append_assoc]; rfl⟩

/-- The first cluster is seeded by the first non-`"Unknown"` value of the
sorted value list and consists of the seed plus every other non-sentinel
value similar to it (the threshold only filters this scan). -/
theorem makeClusters_first (sim : String → String → Bool) (svs : List String)
    (hnd : svs.Nodup) :
    ∀ (us : List String) (v1 : String) (rest : List String), svs = us ++ v1 :: rest →
      (∀ u ∈ us, u = "Unknown") → v1 ≠ "Unknown" →
      ∃ more, makeClusters sim svs = (v1 :: svs.filter
        (fun v => decide (v ≠ v1 ∧ v ≠ "Unknown" ∧ sim v1 v = true))) :: more := by
  have main : ∀ (us : List String) (v1 : String) (rest : List String) (l : List String),
      l = us ++ v1 :: rest → (∀ u ∈ us, u = "Unknown") → v1 ≠ "Unknown" →
      ∃ more, outerScan sim svs l [] [] = (v1 :: svs.filter
        (fun v => decide (v ≠ v1 ∧ v ≠ "Unknown" ∧ sim v1 v = true))) :: more := by
    intro us
    induction us with
    | nil =>
      intro v1 rest l hl _ hv1u
      subst hl
      rw [List.nil_append, outerScan, if_neg (by simp [hv1u])]
      simp only [List.nil_append]
      obtain ⟨more, hm⟩ := outerScan_prefix sim svs rest
        [(innerScan sim v1 svs [v1] [v1]).1] (innerScan sim v1 svs [v1] [v1]).2
      refine ⟨more, ?_⟩
      rw [hm, innerScan_fst_eq_filter sim v1 svs [v1] [v1] hnd]
      have : svs.filter (fun v => decide (v ∉ [v1] ∧ v ≠ "Unknown" ∧ sim v1 v = true))
          = svs.filter (fun v => decide (v ≠ v1 ∧ v ≠ "Unknown" ∧ sim v1 v = true)) := by
        apply List.filter_congr
        intro x _
        simp [List.mem_singleton]
      rw [this]
      rfl
    | cons u us ih =>
      intro v1 rest l hl hus hv1u
      subst hl
      have hu : u = "Unknown" := hus u (List.mem_cons_self _ _)
      rw [List.cons_append, outerScan, if_pos (Or.inr hu)]
      exact ih v1 rest _ rfl (fun x hx => hus x (List.mem_cons_of_mem _ hx)) hv1u
  intro us v1 rest hsvs hus hv1u
  exact main us v1 rest svs hsvs hus hv1u

/-- A value similar to no other value of the batch (in either direction)
always ends up in a singleton cluster: no other value joins it and no seed
absorbs it. -/
theorem makeClusters_singleton (sim : String → String → Bool) (svs : List String)
    (u : String)
    (hsim : ∀ v ∈ svs, v ≠ u → sim u v = false ∧ sim v u = false) :
    ∀ cl ∈ makeClusters sim svs, u ∈ cl → cl = [u] := by
  intro cl hcl hucl
  obtain ⟨s, r, hshape, hsU, hr⟩ := makeClusters_shape sim svs cl hcl
  have hclnd : cl.Nodup := makeClusters_cluster_nodup sim svs cl hcl
  have hclsvs : ∀ x ∈ cl, x ∈ svs := by
    intro x hx
    exact ((mem_makeClusters_join sim svs x).mp (List.mem_flatten.mpr ⟨cl, hcl, hx⟩)).1
  subst hshape
  rcases List.mem_cons.mp hucl with rfl | hur
  · have : r = [] := by
      by_contra hne
      obtain ⟨x, hx⟩ := List.exists_mem_of_ne_nil r hne
      have hxu : x ≠ u := by
        intro h
        exact (List.nodup_cons.mp hclnd).1 (h ▸ hx)
      have hxsvs : x ∈ svs := hclsvs x (List.mem_cons_of_mem _ hx)
      exact absurd (hr x hx) (by rw [(hsim x hxsvs hxu).1]; simp)
    rw [this]
  · have hsu : s ≠ u := by
      intro h
      exact (List.nodup_cons.mp hclnd).1 (h ▸ hur)
    have hssvs : s ∈ svs := hclsvs s (List.mem_cons_self _ _)
    exact absurd (hr u hur) (by rw [(hsim s hssvs hsu).2]; simp)

/-! ## difflib.SequenceMatcher (`DataNormaliser.similarity_ratio`)

`similarity_ratio(a, b)` is `SequenceMatcher(None, a, b).ratio()`. The
matcher is embedded as CPython implements it: the `b2j` character index with
the autojunk purge of popular entries (active when `len(b) >= 200`), the
`find_longest_match` dynamic programme over `j2len` row dictionaries with its
equality extension loops (the junk set is empty since `isjunk is None`, so
`not isbjunk(...)` is always true and the junk extension loops never fire),
and the recursive block collection of `get_matching_blocks`, whose block
sizes sum to the `matches` of `ratio`. -/

/-- Character of a list at an index (positions are always in range where this
is used). -/
def charAt (l : List Char) (i : Nat) : Char := l.getD i '\x00'

/-- The `b2j` index of `SequenceMatcher.__chain_b`: ascending positions of a
character in `b`, with popular characters purged when autojunk is active
(`len(b) >= 200` and more than `len(b) // 100 + 1` occurrences). -/
def b2j (b : List Char) (c : Char) : List Nat :=
  if 200 ≤ b.length ∧ b.length / 100 + 1 < b.count c then []
  else (List.range b.length).filter (fun j => decide (charAt b j = c))

/-- One column step of the `find_longest_match` dynamic programme:
`k = j2len.get(j-1, 0) + 1` becomes the new row entry at `j`, and the best
block is updated when `k` strictly exceeds it. -/
def flmCol (i : Nat) (oldRow : Nat → Nat)
    (st : (Nat × Nat × Nat) × (Nat → Nat)) (j : Nat) : (Nat × Nat × Nat) × (Nat → Nat) :=
  let k := (if j = 0 then 0 else oldRow (j - 1)) + 1
  let newRow : Nat → Nat := fun x => if x = j then k else st.2 x
  if st.1.2.2 < k then ((i + 1 - k, j + 1 - k, k), newRow) else (st.1, newRow)

/-- One row of the dynamic programme: fold the in-range columns of
`b2j[a[i]]` (ascending, as the `continue`/`break` guards leave them). -/
def flmRow (b2jf : Char → List Nat) (a : List Char) (blo bhi : Nat)
    (acc : (Nat × Nat × Nat) × (Nat → Nat)) (i : Nat) : (Nat × Nat × Nat) × (Nat → Nat) :=
  ((b2jf (charAt a i)).filter (fun j => decide (blo ≤ j ∧ j < bhi))).foldl
    (flmCol i acc.2) (acc.1, fun _ => 0)

/-- The full dynamic programme of `find_longest_match` over rows
`alo, ..., ahi-1`, starting from `besti, bestj, bestsize = alo, blo, 0`. -/
def flmDP (a : List Char) (b2jf : Char → List Nat) (alo ahi blo bhi : Nat) :
    (Nat × Nat × Nat) × (Nat → Nat) :=
  (List.range' alo (ahi - alo)).foldl (flmRow b2jf a blo bhi) ((alo, blo, 0), fun _ => 0)

/-- Backward extension loop of `find_longest_match` (the junk set is empty,
so the condition is plain character equality). Each step decreases `besti`,
so fuel equal to the initial `besti` suffices. -/
def extendBack (a b : List Char) (alo blo : Nat) :
    Nat → Nat × Nat × Nat → Nat × Nat × Nat
  | 0, st => st
  | fuel + 1, (besti, bestj, bestsize) =>
    if alo < besti ∧ blo < bestj ∧ charAt a (besti - 1) = charAt b (bestj - 1) then
      extendBack a b alo blo fuel (besti - 1, bestj - 1, bestsize + 1)
    else (besti, bestj, bestsize)

/-- Forward extension loop of `find_longest_match`. Each step increases
`besti + bestsize` towards `ahi`, so fuel `ahi` suffices. -/
def extendFwd (a b : List Char) (ahi bhi : Nat) :
    Nat → Nat × Nat × Nat → Nat × Nat × Nat
  | 0, st => st
  | fuel + 1, (besti, bestj, bestsize) =>
    if besti + bestsize < ahi ∧ bestj + bestsize < bhi ∧
        charAt a (besti + bestsize) = charAt b (bestj + bestsize) then
      extendFwd a b ahi bhi fuel (besti, bestj, bestsize + 1)
    else (besti, bestj, bestsize)

/-- Embedding of `SequenceMatcher.find_longest_match` on the range
`a[alo:ahi]`, `b[blo:bhi]`. -/
def find_longest_match (a b : List Char) (alo ahi blo bhi : Nat) : Nat × Nat × Nat :=
  let st := (flmDP a (b2j b) alo ahi blo bhi).1
  extendFwd a b ahi bhi ahi (extendBack a b alo blo st.1 st)

/-- Sum of the matching block sizes collected by the recursion of
`get_matching_blocks` (the queue order and the merging of adjacent blocks do
not affect the sum). The recursion depth is bounded by the width of the `a`
range, so fuel `len(a) + 1` suffices. -/
def matchTotal (a b : List Char) : Nat → Nat → Nat → Nat → Nat → Nat
  | 0, _, _, _, _ => 0
  | fuel + 1, alo, ahi, blo, bhi =>
    let m := find_longest_match a b alo ahi blo bhi
    if m.2.2 = 0 then 0
    else
      m.2.2
        + (if alo < m.1 ∧ blo < m.2.1 then matchTotal a b fuel alo m.1 blo m.2.1 else 0)
        + (if m.1 + m.2.2 < ahi ∧ m.2.1 + m.2.2 < bhi then
            matchTotal a b fuel (m.1 + m.2.2) ahi (m.2.1 + m.2.2) bhi else 0)

/-- Embedding of `SequenceMatcher(None, a, b).ratio()`: `2 * matches / T`
with `T = len(a) + len(b)`, and `1.0` when `T = 0`. Exact in `ℚ`; the float
division of `_calculate_ratio` is exact for the values compared against
thresholds here. -/
def ratioQ (a b : String) : ℚ :=
  if a.data.length + b.data.length = 0 then 1
  else (2 * (matchTotal a.data b.data (a.data.length + 1) 0 a.data.length 0 b.data.length) : ℚ)
    / ((a.data.length : ℚ) + (b.data.length : ℚ))

/-- Embedding of `DataNormaliser.similarity_ratio` (identical in both
variants). -/
def similarity_ratio (a b : String) : ℚ := ratioQ a b

/-! ## Direct synonym mappings (`DataNormaliser.apply_direct_mappings`) -/

/-- Generic association list assignment with Python dict overwrite
semantics. -/
def assocSet {κ α : Type} [DecidableEq κ] : List (κ × α) → κ → α → List (κ × α)
  | [], k, v => [(k, v)]
  | (k', v') :: rest, k, v =>
    if k' = k then (k, v) :: rest else (k', v') :: assocSet rest k v

/-- Generic association list lookup. -/
def assocGet {κ α : Type} [DecidableEq κ] (k : κ) : List (κ × α) → Option α
  | [] => none
  | (k', v') :: rest => if k' = k then some v' else assocGet k rest

/-- Append to a `defaultdict(list)` entry. -/
def multiAppend {α : Type} : List (String × List α) → String → α → List (String × List α)
  | [], k, v => [(k, [v])]
  | (k', vs) :: rest, k, v =>
    if k' = k then (k', vs ++ [v]) :: rest else (k', vs) :: multiAppend rest k v

/-- The `synonym_mappings` table of `data_normaliser.py`. -/
def synonym_mappings : List (String × List (String × List String)) :=
  [("subject",
    [("graphic design",
      ["graphics", "graphics and photography", "graphic design visual communications"]),
     ("information technology", ["it", "btec it"]),
     ("biology chemistry mathematics",
      ["biology chemistry maths", "chemistry biology maths"]),
     ("animal management", ["animal care", "animal welfare", "animal care and welfare"]),
     ("construction", ["multi-trade construction", "multi trade"])])]

/-- The `synonym_mappings` table of `student_data_normaliser.py`. -/
def student_synonym_mappings : List (String × List (String × List String)) :=
  [("subject",
    [("graphic design",
      ["graphics", "graphics and photography", "graphic design visual communications"]),
     ("information technology", ["it", "btec it"]),
     ("animal management", ["animal care", "animal welfare", "animal care and welfare"]),
     ("construction", ["multi-trade construction", "multi trade"]),
     ("mathematics", ["maths", "further maths", "further mathematics"]),
     ("biology", ["bio"]),
     ("chemistry", ["chem"]),
     ("psychology", ["psych"])])]

/-- One value of `apply_direct_mappings`: the first canonical entry one of
whose aliases is similar to the value above confidence 0.9 replaces it. The
float comparison `> 0.9` agrees with the exact comparison against `9/10`
because the ratios involved have small denominators. -/
def applyDirectValue (rows : List (String × List String)) (value : String) : String :=
  match rows.find? (fun row =>
      row.2.any (fun syn => decide ((9 : ℚ) / 10 < similarity_ratio value syn))) with
  | some row => row.1
  | none => value

/-- Category dispatch of `apply_direct_mappings` for one value: a falsy or
unregistered category leaves the value unchanged. -/
def applyDirectCat (table : List (String × List (String × List String)))
    (category : Option String) (value : String) : String :=
  match category with
  | none => value
  | some cat =>
    match table.lookup cat with
    | none => value
    | some rows => applyDirectValue rows value

/-- Embedding of `DataNormaliser.apply_direct_mappings`, parameterised by the
variant's synonym table; each value is mapped independently. -/
def apply_direct_mappings (table : List (String × List (String × List String)))
    (values : List String) (category : Option String) : List String :=
  values.map (applyDirectCat table category)

/-! ## Combined-subject splitting (`split_combined_subjects`, student variant
only; a no-op unless the category is `subject`) -/

/-- Contiguous-substring scan over character lists. -/
def listInfix (needle : List Char) : List Char → Bool
  | [] => needle.isEmpty
  | c :: cs => (matchLit needle (c :: cs)).isSome || listInfix needle cs

/-- Python `needle in hay` for strings. -/
def strContains (hay needle : String) : Bool := listInfix needle.data hay.data

/-- Python `str.strip()` (ASCII whitespace model). -/
def pyStrip (s : String) : String :=
  String.mk (((s.data.dropWhile isSpChar).reverse.dropWhile isSpChar).reverse)

/-- The subject names recognised by `split_combined_subjects`. -/
def splitSubjectNames : List String :=
  ["mathematics", "maths", "further maths", "further mathematics",
   "biology", "chemistry", "physics", "psychology", "sociology",
   "english", "history", "geography", "computer science",
   "business", "economics", "art", "design", "music"]

/-- Matcher for one separator of `re.split(r'\s+and\s+|\s+&\s+|,\s*', s)`,
trying the alternatives in order. Greedy `\s+` runs are maximal munch, which
is equivalent here because a shorter run is followed by whitespace. -/
def matchSplitSep (l : List Char) : Option Nat :=
  let sp := l.takeWhile isSpChar
  let afterSp := l.drop sp.length
  let tryAnd : Option Nat :=
    if sp.isEmpty then none
    else
      match matchLit "and".data afterSp with
      | some rest2 =>
        let sp2 := rest2.takeWhile isSpChar
        if sp2.isEmpty then none else some (sp.length + 3 + sp2.length)
      | none => none
  match tryAnd with
  | some n => some n
  | none =>
    let tryAmp : Option Nat :=
      if sp.isEmpty then none
      else
        match afterSp with
        | '&' :: rest2 =>
          let sp2 := rest2.takeWhile isSpChar
          if sp2.isEmpty then none else some (sp.length + 1 + sp2.length)
        | _ => none
    match tryAmp with
    | some n => some n
    | none =>
      match l with
      | ',' :: rest => some (1 + (rest.takeWhile isSpChar).length)
      | _ => none

/-- Model of `re.split` for the separator pattern above: pieces between
non-overlapping leftmost matches, empty pieces kept. -/
def pySplitSep : Nat → List Char → List Char → List (List Char)
  | 0, acc, rest => [acc.reverse ++ rest]
  | _ + 1, acc, [] => [acc.reverse]
  | fuel + 1, acc, c :: cs =>
    match matchSplitSep (c :: cs) with
    | some (n + 1) => acc.reverse :: pySplitSep fuel [] ((c :: cs).drop (n + 1))
    | _ => pySplitSep fuel (c :: acc) cs

/-- Embedding of `DataNormaliser.split_combined_subjects` of the student
variant. -/
def split_combined_subjects (value_list : List String) (category : Option String) :
    List String :=
  if category ≠ some "subject" then value_list
  else
    (value_list.map (fun value =>
      if value = "" ∨ value = "Unknown" then [value]
      else
        let value_lower := String.mk (value.data.map Char.toLower)
        let containsMultiple := strContains value_lower "and"
          || 1 < splitSubjectNames.countP (fun subj => strContains value_lower subj)
        if containsMultiple then
          let words0 := (pySplitSep value_lower.data.length [] value_lower.data).map String.mk
          let words := splitSubjectNames.foldl (fun ws subj =>
            if strContains value_lower subj && !(ws.any (fun w => strContains w subj))
            then ws ++ [subj] else ws) words0
          (words.filter (fun w => !(w == "") && !(pyStrip w == ""))).map pyStrip
        else [value])).flatten

/-! ## `cluster_similar_values` (both variants) -/

/-- The similarity test of the clustering loop:
`similarity_ratio(val1, val2) > threshold`. -/
def simGT (t : ℚ) (a b : String) : Bool := decide (t < similarity_ratio a b)

/-- Model of `max(cluster_counts, key=cluster_counts.get)`: the first member
attaining the maximal count (Python `max` keeps the earliest maximum). The
cluster is never empty; the empty-list value is arbitrary. -/
def pyMaxByCount (counts : String → Nat) : List String → String
  | [] => ""
  | x :: xs => xs.foldl (fun best v => if counts best < counts v then v else best) x

/-- One cluster of the canonical-label selection (lines 173-189 of
`data_normaliser.py`): the most frequent member, title-cased, becomes the
image of every member (an empty cluster is skipped by `if not cluster`). -/
def buildMappingStep (counts : String → Nat) (mp : List (String × String))
    (cluster : List String) : List (String × String) :=
  match cluster with
  | [] => mp
  | _ =>
    cluster.foldl (fun mp' v => assocSet mp' v (titleCase (pyMaxByCount counts cluster))) mp

/-- Canonical-label selection over all clusters. -/
def buildMapping (counts : String → Nat) (clusters : List (List String)) :
    List (String × String) :=
  clusters.foldl (buildMappingStep counts) []

/-- Canonical label for one cleaned value in the final loop of
`cluster_similar_values`: the sentinel maps to itself, every other value to
its cluster image (or its own title case when unclustered). -/
def canonOf (mapping : List (String × String)) (cleanedVal : String) : String :=
  if cleanedVal = "Unknown" then "Unknown"
  else (assocGet cleanedVal mapping).getD (titleCase cleanedVal)

/-- Python hashability of the modelled values: `None`, booleans and strings
are usable as dict keys; lists and dicts raise `TypeError: unhashable type`
when assigned as keys. -/
def hashablePy : PyVal → Bool
  | .vNone => true
  | .vBool _ => true
  | .vStr _ => true
  | .vStrList _ => false
  | .vDictNil => false
  | .vDictCons _ _ _ => false

/-- Final loop of the base `cluster_similar_values` (lines 191-207), one
original/cleaned pair at a time: the assignment
`original_to_canonical[original] = canonical` raises `TypeError` for an
unhashable original (a list- or dict-valued field), modelled as `none`; for
a hashable original it records `original -> canonical` and appends the
original to the canonical label's cluster info. -/
def finalizeBaseAux (mapping : List (String × String)) :
    List (PyVal × String) → List (PyVal × String) × List (String × List PyVal) →
    Option (List (PyVal × String) × List (String × List PyVal))
  | [], acc => some acc
  | pair :: rest, acc =>
    if hashablePy pair.1 then
      finalizeBaseAux mapping rest
        (assocSet acc.1 pair.1 (canonOf mapping pair.2),
         multiAppend acc.2 (canonOf mapping pair.2) pair.1)
    else none

/-- The base final loop over the originals paired with their cleaned values
(`zip` models the `i < len(cleaned_values)` guard). -/
def finalizeBase (value_list : List PyVal) (cleaned : List String)
    (mapping : List (String × String)) :
    Option (List (PyVal × String) × List (String × List PyVal)) :=
  finalizeBaseAux mapping (value_list.zip cleaned) ([], [])

/-- One step of the student final loop: the recorded mapping value is
title-cased once more (the `cluster_info` key is not). -/
def finalizeStudentStep (mapping : List (String × String))
    (acc : List (PyVal × String) × List (String × List PyVal)) (pair : PyVal × String) :
    List (PyVal × String) × List (String × List PyVal) :=
  (assocSet acc.1 pair.1 (titleCase (canonOf mapping pair.2)),
   multiAppend acc.2 (canonOf mapping pair.2) pair.1)

/-- Final loop of the student `cluster_similar_values` (lines 251-267). -/
def finalizeStudent (value_list : List PyVal) (cleaned : List String)
    (mapping : List (String × String)) :
    List (PyVal × String) × List (String × List PyVal) :=
  (value_list.zip cleaned).foldl (finalizeStudentStep mapping) ([], [])

/-- Embedding of `DataNormaliser.cluster_similar_values` of
`data_normaliser.py`: clean, apply direct mappings, cluster the distinct
values by descending frequency, choose canonical labels, and map originals.
`none` models the `TypeError` the final loop raises on an unhashable
original. -/
def cluster_similar_values (value_list : List PyVal) (category : Option String)
    (threshold : ℚ) : Option (List (PyVal × String) × List (String × List PyVal)) :=
  if value_list.isEmpty then some ([], [])
  else
    let cleaned := value_list.map (fun v => clean_text v category)
    let cleaned := apply_direct_mappings synonym_mappings cleaned category
    let clusters := makeClusters (simGT threshold) (sortedValues cleaned)
    let mapping := buildMapping (fun v => cleaned.count v) clusters
    finalizeBase value_list cleaned mapping

/-- Embedding of `DataNormaliser.cluster_similar_values` of
`student_data_normaliser.py`: additionally splits combined subjects (only for
the `subject` category), uses the richer synonym table, and title-cases the
final mapping values. -/
def student_cluster_similar_values (value_list : List PyVal) (category : Option String)
    (threshold : ℚ) : List (PyVal × String) × List (String × List PyVal) :=
  if value_list.isEmpty then ([], [])
  else
    let cleaned := value_list.map (fun v => clean_text v category)
    let cleaned := if category = some "subject"
      then split_combined_subjects cleaned category else cleaned
    let cleaned := apply_direct_mappings student_synonym_mappings cleaned category
    let clusters := makeClusters (simGT threshold) (sortedValues cleaned)
    let mapping := buildMapping (fun v => cleaned.count v) clusters
    finalizeStudent value_list cleaned mapping

/-! ## `normalise_field_values` (both variants) -/

/-- Model of `field_path.split('.')` (structural, unlike `String.splitOn`,
so that it reduces in the kernel): pieces between dots, empty pieces kept. -/
def splitDotAux : List Char → List Char → List String
  | acc, [] => [String.mk acc.reverse]
  | acc, c :: cs =>
    if c = '.' then String.mk acc.reverse :: splitDotAux [] cs
    else splitDotAux (c :: acc) cs

/-- Python `s.split('.')`. -/
def splitDot (s : String) : List String := splitDotAux [] s.data

/-- The dotted-path walk of `normalise_field_values`: descend while the value
is a dict containing the key, else `None` (the loop breaks). -/
def walkPath : PyVal → List String → PyVal
  | value, [] => value
  | value, key :: rest =>
    match dictGet key value with
    | some v => walkPath v rest
    | none => .vNone

/-- Raw value extracted for one document: the walk result if truthy, else the
string `"Unknown"`. -/
def extractValue (doc : PyVal) (field_path : String) : PyVal :=
  let v := walkPath doc (splitDot field_path)
  if truthy v then v else .vStr "Unknown"

/-- Embedding of `DataNormaliser.normalise_field_values` of
`data_normaliser.py` (threshold fixed at the default `0.85`). `none` models
the `TypeError` propagating out of `cluster_similar_values` when a document's
path resolves to a truthy list or dict value. -/
def normalise_field_values (documents : List PyVal) (field_path : String)
    (category : Option String) :
    Option (List String × List (PyVal × String) × List (String × List PyVal)) :=
  let values := documents.map (fun doc => extractValue doc field_path)
  (cluster_similar_values values category (17 / 20)).map
    (fun p => (values.map (fun v => (assocGet v p.1).getD "Unknown"), p.1, p.2))

/-- Embedding of `DataNormaliser.normalise_field_values` of
`student_data_normaliser.py`. -/
def student_normalise_field_values (documents : List PyVal) (field_path : String)
    (category : Option String) :
    List String × List (PyVal × String) × List (String × List PyVal) :=
  let values := documents.map (fun doc => extractValue doc field_path)
  let p := student_cluster_similar_values values category (17 / 20)
  (values.map (fun v => (assocGet v p.1).getD "Unknown"), p.1, p.2)

/-! ## Association list and selection lemmas -/

theorem assocGet_assocSet_self {κ α : Type} [DecidableEq κ] :
    ∀ (l : List (κ × α)) (k : κ) (v : α), assocGet k (assocSet l k v) = some v
  | [], k, v => by simp [assocSet, assocGet]
  | (k', v') :: rest, k, v => by
    by_cases h : k' = k
    · simp [assocSet, assocGet, h]
    · simp only [assocSet, if_neg h, assocGet, assocGet_assocSet_self rest k v, if_neg h]

theorem assocGet_assocSet_ne {κ α : Type} [DecidableEq κ] :
    ∀ (l : List (κ × α)) (k k' : κ) (v : α), k' ≠ k →
      assocGet k (assocSet l k' v) = assocGet k l
  | [], k, k', v, h => by simp [assocSet, assocGet, h]
  | (k'', v'') :: rest, k, k', v, h => by
    by_cases h2 : k'' = k'
    · subst h2
      simp only [assocSet, if_pos rfl, assocGet, if_neg h]
    · simp only [assocSet, if_neg h2, assocGet]
      by_cases h3 : k'' = k
      · rw [if_pos h3, if_pos h3]
      · rw [if_neg h3, if_neg h3, assocGet_assocSet_ne rest k k' v h]

theorem assocGet_setAll_not_mem (d : String) (x : String) :
    ∀ (cl : List String) (mp : List (String × String)), x ∉ cl →
      assocGet x (cl.foldl (fun mp' v => assocSet mp' v d) mp) = assocGet x mp
  | [], _, _ => rfl
  | v :: cl, mp, hx => by
    rw [List.foldl_cons,
      assocGet_setAll_not_mem d x cl _ (fun h => hx (List.mem_cons_of_mem _ h)),
      assocGet_assocSet_ne _ _ _ _ (fun h => hx (List.mem_cons.mpr (Or.inl h.symm)))]

theorem assocGet_setAll_mem (d : String) (x : String) :
    ∀ (cl : List String) (mp : List (String × String)), x ∈ cl →
      assocGet x (cl.foldl (fun mp' v => assocSet mp' v d) mp) = some d
  | [], _, hx => absurd hx (List.not_mem_nil x)
  | v :: cl, mp, hx => by
    rw [List.foldl_cons]
    by_cases hxcl : x ∈ cl
    · exact assocGet_setAll_mem d x cl _ hxcl
    · have hxv : x = v := by
        rcases List.mem_cons.mp hx with h | h
        · exact h
        · exact absurd h hxcl
      subst hxv
      rw [assocGet_setAll_not_mem d x cl _ hxcl, assocGet_assocSet_self]

theorem pyMaxFold_mem (counts : String → Nat) :
    ∀ (xs : List String) (b : String),
      xs.foldl (fun best v => if counts best < counts v then v else best) b = b ∨
      xs.foldl (fun best v => if counts best < counts v then v else best) b ∈ xs
  | [], _ => Or.inl rfl
  | x :: xs, b => by
    rw [List.foldl_cons]
    by_cases h : counts b < counts x
    · rw [if_pos h]
      rcases pyMaxFold_mem counts xs x with h' | h'
      · exact Or.inr (List.mem_cons.mpr (Or.inl h'))
      · exact Or.inr (List.mem_cons_of_mem _ h')
    · rw [if_neg h]
      rcases pyMaxFold_mem counts xs b with h' | h'
      · exact Or.inl h'
      · exact Or.inr (List.mem_cons_of_mem _ h')

theorem pyMaxFold_ge (counts : String → Nat) :
    ∀ (xs : List String) (b : String),
      counts b ≤ counts (xs.foldl (fun best v => if counts best < counts v then v else best) b) ∧
      ∀ m ∈ xs,
        counts m ≤ counts (xs.foldl (fun best v => if counts best < counts v then v else best) b)
  | [], _ => ⟨le_refl _, fun m hm => absurd hm (List.not_mem_nil m)⟩
  | x :: xs, b => by
    rw [List.foldl_cons]
    by_cases h : counts b < counts x
    · rw [if_pos h]
      obtain ⟨h1, h2⟩ := pyMaxFold_ge counts xs x
      refine ⟨le_trans (le_of_lt h) h1, fun m hm => ?_⟩
      rcases List.mem_cons.mp hm with rfl | hm
      · exact h1
      · exact h2 m hm
    · rw [if_neg h]
      obtain ⟨h1, h2⟩ := pyMaxFold_ge counts xs b
      refine ⟨h1, fun m hm => ?_⟩
      rcases List.mem_cons.mp hm with rfl | hm
      · exact le_trans (le_of_not_lt h) h1
      · exact h2 m hm

theorem pyMaxByCount_spec (counts : String → Nat) (cl : List String) (hne : cl ≠ []) :
    pyMaxByCount counts cl ∈ cl ∧ ∀ m ∈ cl, counts m ≤ counts (pyMaxByCount counts cl) := by
  match cl, hne with
  | x :: xs, _ =>
    constructor
    · rcases pyMaxFold_mem counts xs x with h | h
      · exact List.mem_cons.mpr (Or.inl h)
      · exact List.mem_cons_of_mem _ h
    · intro m hm
      obtain ⟨h1, h2⟩ := pyMaxFold_ge counts xs x
      rcases List.mem_cons.mp hm with rfl | hm
      · exact h1
      · exact h2 m hm

theorem buildMappingStep_not_mem (counts : String → Nat) (x : String)
    (cluster : List String) (mp : List (String × String)) (hx : x ∉ cluster) :
    assocGet x (buildMappingStep counts mp cluster) = assocGet x mp := by
  match cluster with
  | [] => rfl
  | v :: cl => exact assocGet_setAll_not_mem _ x (v :: cl) mp hx

theorem buildMappingStep_mem (counts : String → Nat) (x : String)
    (cluster : List String) (mp : List (String × String)) (hx : x ∈ cluster) :
    assocGet x (buildMappingStep counts mp cluster)
      = some (titleCase (pyMaxByCount counts cluster)) := by
  match cluster with
  | [] => exact absurd hx (List.not_mem_nil x)
  | v :: cl => exact assocGet_setAll_mem _ x (v :: cl) mp hx

theorem buildMapping_fold_not_mem (counts : String → Nat) (x : String) :
    ∀ (clusters : List (List String)) (mp : List (String × String)),
      (∀ cl ∈ clusters, x ∉ cl) →
      assocGet x (clusters.foldl (buildMappingStep counts) mp) = assocGet x mp
  | [], _, _ => rfl
  | c0 :: rest, mp, hx => by
    rw [List.foldl_cons,
      buildMapping_fold_not_mem counts x rest _ (fun cl hcl => hx cl (List.mem_cons_of_mem _ hcl)),
      buildMappingStep_not_mem counts x c0 mp (hx c0 (List.mem_cons_self _ _))]

theorem buildMapping_fold_mem (counts : String → Nat) (x : String) :
    ∀ (clusters : List (List String)) (mp : List (String × String)) (cl : List String),
      cl ∈ clusters → x ∈ cl → clusters.Pairwise List.Disjoint →
      assocGet x (clusters.foldl (buildMappingStep counts) mp)
        = some (titleCase (pyMaxByCount counts cl))
  | [], _, cl, hcl, _, _ => absurd hcl (List.not_mem_nil cl)
  | c0 :: rest, mp, cl, hcl, hx, hpw => by
    rw [List.foldl_cons]
    obtain ⟨hd0, hpw'⟩ := List.pairwise_cons.mp hpw
    rcases List.mem_cons.mp hcl with rfl | hcl'
    · rw [buildMapping_fold_not_mem counts x rest _
        (fun cl' hcl' hxc => hd0 cl' hcl' hx hxc),
        buildMappingStep_mem counts x cl mp hx]
    · exact buildMapping_fold_mem counts x rest _ cl hcl' hx hpw'

theorem assocGet_buildMapping_mem (counts : String → Nat) (x : String)
    (clusters : List (List String)) (cl : List String)
    (hcl : cl ∈ clusters) (hx : x ∈ cl) (hpw : clusters.Pairwise List.Disjoint) :
    assocGet x (buildMapping counts clusters) = some (titleCase (pyMaxByCount counts cl)) :=
  buildMapping_fold_mem counts x clusters [] cl hcl hx hpw

/-! ## Claim C5 — percentage bucketing -/

/-- C5 counterexample: the claim asserts the bucket boundaries are reproduced
exactly in every variant of the report formatter, with 31 mapping to
`"30-70%"`; the student variant maps 31 to `"30-50%"` instead. -/
theorem C5_counterexample :
    student_get_percentage_range 31 = "30-50%" ∧
    student_get_percentage_range 31 ≠ get_percentage_range 31 := by
  have h1 : student_get_percentage_range 31 = "30-50%" := by
    rw [student_get_percentage_range]; norm_num
  have h2 : get_percentage_range 31 = "30-70%" := by
    rw [get_percentage_range]; norm_num
  refine ⟨h1, ?_⟩
  rw [h1, h2]
  decide

/-- C5 amended: a percentage of exactly 30 maps to `"15-30%"` (closed upper
bound) in all three formatter variants, and a percentage of exactly 31 maps
to `"30-70%"` in `data_summary.py` and `thematic_analytics.py`; the
`student_data_summary.py` variant splits that bucket at 50 and maps 31 to
`"30-50%"`. -/
theorem C5_amended :
    get_percentage_range 30 = "15-30%" ∧
    thematic_get_percentage_range 30 = "15-30%" ∧
    student_get_percentage_range 30 = "15-30%" ∧
    get_percentage_range 31 = "30-70%" ∧
    thematic_get_percentage_range 31 = "30-70%" ∧
    student_get_percentage_range 31 = "30-50%" := by
  rw [get_percentage_range, thematic_get_percentage_range, student_get_percentage_range,
    get_percentage_range, thematic_get_percentage_range, student_get_percentage_range]
  norm_num

/-! ## Claim C1 — the clusters partition the distinct cleaned values -/

/-- C1: for every cleaned batch (the value list after `clean_text` and
`apply_direct_mappings`, in either variant) and every threshold, the clusters
built by the loop of `cluster_similar_values` partition the distinct
non-`"Unknown"` cleaned values: their members are pairwise distinct overall
(so every value lies in exactly one cluster), the union of the members is
exactly the set of distinct non-`"Unknown"` cleaned values, and distinct
clusters are disjoint. -/
theorem C1_cluster_partition (cleaned : List String) (t : ℚ) :
    (makeClusters (simGT t) (sortedValues cleaned)).flatten.Nodup ∧
    (∀ x, x ∈ (makeClusters (simGT t) (sortedValues cleaned)).flatten ↔
      x ∈ cleaned ∧ x ≠ "Unknown") ∧
    (makeClusters (simGT t) (sortedValues cleaned)).Pairwise List.Disjoint := by
  refine ⟨makeClusters_join_nodup _ _, fun x => ?_, ?_⟩
  · rw [mem_makeClusters_join, sortedValues_mem]
  · exact (List.nodup_flatten.mp (makeClusters_join_nodup _ _)).2

/-! ## Claim C6 — canonical frequency dominance and title-casing -/

/-- C6: for every cluster built by `cluster_similar_values` (either variant),
the canonical label assigned to its members by the selection step is the
title-cased form of a member whose frequency in the cleaned batch is at least
that of every other member. -/
theorem C6_canonical_selection (cleaned : List String) (t : ℚ) :
    ∀ cl ∈ makeClusters (simGT t) (sortedValues cleaned),
      ∃ m ∈ cl, (∀ v ∈ cl, cleaned.count v ≤ cleaned.count m) ∧
        ∀ v ∈ cl, assocGet v (buildMapping (fun w => cleaned.count w)
          (makeClusters (simGT t) (sortedValues cleaned))) = some (titleCase m) := by
  intro cl hcl
  have hne : cl ≠ [] := by
    obtain ⟨s, r, hshape, _, _⟩ := makeClusters_shape (simGT t) (sortedValues cleaned) cl hcl
    simp [hshape]
  obtain ⟨hmem, hmax⟩ := pyMaxByCount_spec (fun w => cleaned.count w) cl hne
  refine ⟨pyMaxByCount (fun w => cleaned.count w) cl, hmem, hmax, fun v hv => ?_⟩
  exact assocGet_buildMapping_mem _ v _ cl hcl hv
    (List.nodup_flatten.mp (makeClusters_join_nodup _ _)).2

unseal Rat.mul Rat.inv Rat.add Rat.sub in
/-- C6 witness: the batch `["aa", "aa", "b"]` at the default threshold yields
the cluster `["aa"]`, whose canonical label is `"Aa"`. -/
theorem C6_canonical_selection_witness :
    (["aa"] ∈ makeClusters (simGT (17 / 20)) (sortedValues ["aa", "aa", "b"])) ∧
    ∃ m ∈ ["aa"], (∀ v ∈ ["aa"], ["aa", "aa", "b"].count v ≤ ["aa", "aa", "b"].count m) ∧
      ∀ v ∈ ["aa"], assocGet v (buildMapping (fun w => ["aa", "aa", "b"].count w)
        (makeClusters (simGT (17 / 20)) (sortedValues ["aa", "aa", "b"]))) = some (titleCase m) :=
  ⟨by decide, C6_canonical_selection ["aa", "aa", "b"] (17 / 20) ["aa"] (by decide)⟩

/-! ## Claim C3 — threshold monotonicity -/

theorem filter_sublist_mono {p q : String → Bool} (h : ∀ a, p a = true → q a = true) :
    ∀ l : List String, List.Sublist (l.filter p) (l.filter q)
  | [] => List.Sublist.refl _
  | x :: xs => by
    rw [List.filter_cons, List.filter_cons]
    by_cases hp : p x = true
    · rw [if_pos hp, if_pos (h x hp)]
      exact List.Sublist.cons₂ x (filter_sublist_mono h xs)
    · rw [if_neg hp]
      by_cases hq : q x = true
      · rw [if_pos hq]
        exact (filter_sublist_mono h xs).trans (List.sublist_cons_self x _)
      · rw [if_neg hq]
        exact filter_sublist_mono h xs

unseal Rat.mul Rat.inv Rat.add Rat.sub in
/-- C3 counterexample: for the fixed batch below (frequencies 4, 3, 2, 1 over
four distinct values, category `None`), the clusters of
`cluster_similar_values` at threshold `4/5` are of sizes 2, 1, 1, while at
the strictly larger threshold `7/8` a cluster of size 3 appears — larger than
every cluster produced at the lower threshold, so raising the threshold can
grow a cluster. -/
theorem C3_counterexample :
    (let batch : List PyVal := [.vStr "abcdefgz", .vStr "abcdefgz", .vStr "abcdefgz",
      .vStr "abcdefgz", .vStr "abcdefgh", .vStr "abcdefgh", .vStr "abcdefgh",
      .vStr "abcdefghxx", .vStr "abcdefghxx", .vStr "xxabcdefgh"]
    let cleaned := apply_direct_mappings synonym_mappings
      (batch.map (fun v => clean_text v none)) none
    ((4 : ℚ) / 5 < 7 / 8) ∧
    ((makeClusters (simGT (7 / 8)) (sortedValues cleaned)).any (fun c2 =>
      (makeClusters (simGT (4 / 5)) (sortedValues cleaned)).all (fun c1 =>
        decide (c1.length < c2.length))) = true)) := by
  refine ⟨by norm_num, ?_⟩
  decide

/-- C3 amended: threshold monotonicity fails in general (see the
counterexample), but it does hold for the first cluster: for a fixed batch,
the cluster seeded by the first non-`"Unknown"` sorted value at the higher
threshold is a subset of the one at the lower threshold, hence no larger. -/
theorem C3_amended (cleaned : List String) (t1 t2 : ℚ) (h12 : t1 ≤ t2)
    (us : List String) (v1 : String) (rest : List String)
    (hdecomp : sortedValues cleaned = us ++ v1 :: rest)
    (hus : ∀ u ∈ us, u = "Unknown") (hv1 : v1 ≠ "Unknown") :
    ∃ c1 more1 c2 more2,
      makeClusters (simGT t1) (sortedValues cleaned) = c1 :: more1 ∧
      makeClusters (simGT t2) (sortedValues cleaned) = c2 :: more2 ∧
      (∀ x ∈ c2, x ∈ c1) ∧ c2.length ≤ c1.length := by
  obtain ⟨more1, h1⟩ := makeClusters_first (simGT t1) (sortedValues cleaned)
    (sortedValues_nodup cleaned) us v1 rest hdecomp hus hv1
  obtain ⟨more2, h2⟩ := makeClusters_first (simGT t2) (sortedValues cleaned)
    (sortedValues_nodup cleaned) us v1 rest hdecomp hus hv1
  have hmono : ∀ a, (fun v => decide (v ≠ v1 ∧ v ≠ "Unknown" ∧ simGT t2 v1 v = true)) a = true →
      (fun v => decide (v ≠ v1 ∧ v ≠ "Unknown" ∧ simGT t1 v1 v = true)) a = true := by
    intro a ha
    simp only [decide_eq_true_eq] at ha ⊢
    refine ⟨ha.1, ha.2.1, ?_⟩
    have h2' := ha.2.2
    simp only [simGT, decide_eq_true_eq] at h2' ⊢
    exact lt_of_le_of_lt h12 h2'
  have hsub := filter_sublist_mono hmono (sortedValues cleaned)
  refine ⟨_, more1, _, more2, h1, h2, fun x hx => ?_, ?_⟩
  · rcases List.mem_cons.mp hx with rfl | hx
    · exact List.mem_cons_self _ _
    · exact List.mem_cons_of_mem _ (hsub.subset hx)
  · simpa using Nat.succ_le_succ hsub.length_le

unseal Rat.mul Rat.inv Rat.add Rat.sub in
/-- C3 amended witness: for the batch `["aab", "abb"]` (similarity `2/3`),
the first cluster at threshold `3/4` is contained in the first cluster at
threshold `1/2`. -/
theorem C3_amended_witness :
    (sortedValues ["aab", "abb"] = [] ++ "aab" :: ["abb"]) ∧
    ∃ c1 more1 c2 more2,
      makeClusters (simGT (1 / 2)) (sortedValues ["aab", "abb"]) = c1 :: more1 ∧
      makeClusters (simGT (3 / 4)) (sortedValues ["aab", "abb"]) = c2 :: more2 ∧
      (∀ x ∈ c2, x ∈ c1) ∧ c2.length ≤ c1.length :=
  ⟨by decide, C3_amended ["aab", "abb"] (1 / 2) (3 / 4) (by norm_num) [] "aab" ["abb"]
    (by decide) (by simp) (by decide)⟩

/-! ## Claim C2 — sentinel stability -/

unseal Rat.mul Rat.inv Rat.add Rat.sub in
theorem applyDirectValue_unknown_subject_base :
    applyDirectValue [("graphic design",
      ["graphics", "graphics and photography", "graphic design visual communications"]),
     ("information technology", ["it", "btec it"]),
     ("biology chemistry mathematics",
      ["biology chemistry maths", "chemistry biology maths"]),
     ("animal management", ["animal care", "animal welfare", "animal care and welfare"]),
     ("construction", ["multi-trade construction", "multi trade"])] "Unknown" = "Unknown" := by
  decide

theorem applyDirectCat_unknown_base (category : Option String) :
    applyDirectCat synonym_mappings category "Unknown" = "Unknown" := by
  match category with
  | none => rfl
  | some cat =>
    by_cases hc : cat = "subject"
    · subst hc
      show applyDirectValue _ "Unknown" = "Unknown"
      exact applyDirectValue_unknown_subject_base
    · have hb : (cat == "subject") = false := beq_eq_false_iff_ne.mpr hc
      have hl : synonym_mappings.lookup cat = none := by
        simp [synonym_mappings, List.lookup, hb]
      simp [applyDirectCat, hl]

theorem zip_map_snd {α β : Type} (f : α → β) :
    ∀ (l : List α) (p : α × β), p ∈ l.zip (l.map f) → p.2 = f p.1
  | [], p, hp => absurd hp (List.not_mem_nil p)
  | x :: xs, p, hp => by
    rw [List.map_cons, List.zip_cons_cons] at hp
    rcases List.mem_cons.mp hp with rfl | hp
    · rfl
    · exact zip_map_snd f xs p hp

theorem zip_map_mem {α β : Type} (f : α → β) :
    ∀ (l : List α) (v : α), v ∈ l → (v, f v) ∈ l.zip (l.map f)
  | [], v, hv => absurd hv (List.not_mem_nil v)
  | x :: xs, v, hv => by
    rw [List.map_cons, List.zip_cons_cons]
    rcases List.mem_cons.mp hv with rfl | hv
    · exact List.mem_cons_self _ _
    · exact List.mem_cons_of_mem _ (zip_map_mem f xs v hv)

/-- Every pair of the final loop whose original is `v` records the constant
canonical `c`; when the loop completes without raising, the
`original_to_canonical` entry for `v` is `c`. -/
theorem assocGet_finalizeBase_fold (mapping : List (String × String)) (v : PyVal) (c : String) :
    ∀ (pairs : List (PyVal × String)) (acc : List (PyVal × String) × List (String × List PyVal))
      (r : List (PyVal × String) × List (String × List PyVal)),
      finalizeBaseAux mapping pairs acc = some r →
      (∀ p ∈ pairs, p.1 = v → canonOf mapping p.2 = c) →
      (assocGet v acc.1 = some c ∨ ∃ p ∈ pairs, p.1 = v) →
      assocGet v r.1 = some c
  | [], acc, r, hr, _, hacc => by
    simp only [finalizeBaseAux, Option.some_inj] at hr
    subst hr
    rcases hacc with h | ⟨p, hp, _⟩
    · exact h
    · exact absurd hp (List.not_mem_nil p)
  | p0 :: pairs, acc, r, hr, hall, hacc => by
    simp only [finalizeBaseAux] at hr
    by_cases hh : hashablePy p0.1 = true
    · rw [if_pos hh] at hr
      by_cases hp0 : p0.1 = v
      · refine assocGet_finalizeBase_fold mapping v c pairs _ r hr
          (fun p hp => hall p (List.mem_cons_of_mem _ hp)) (Or.inl ?_)
        show assocGet v (assocSet acc.1 p0.1 (canonOf mapping p0.2)) = some c
        rw [hall p0 (List.mem_cons_self _ _) hp0, hp0]
        exact assocGet_assocSet_self _ _ _
      · refine assocGet_finalizeBase_fold mapping v c pairs _ r hr
          (fun p hp => hall p (List.mem_cons_of_mem _ hp)) ?_
        rcases hacc with h | ⟨p, hp, hpv⟩
        · left
          show assocGet v (assocSet acc.1 p0.1 (canonOf mapping p0.2)) = some c
          rw [assocGet_assocSet_ne _ _ _ _ hp0]
          exact h
        · rcases List.mem_cons.mp hp with rfl | hp'
          · exact absurd hpv hp0
          · exact Or.inr ⟨p, hp', hpv⟩
    · rw [if_neg hh] at hr
      exact absurd hr (by simp)

/-- An unhashable original anywhere in the batch makes the final loop
raise. -/
theorem finalizeBaseAux_none (mapping : List (String × String)) :
    ∀ (pairs : List (PyVal × String)) (acc : List (PyVal × String) × List (String × List PyVal)),
      (∃ p ∈ pairs, hashablePy p.1 = false) →
      finalizeBaseAux mapping pairs acc = none
  | [], _, ⟨p, hp, _⟩ => absurd hp (List.not_mem_nil p)
  | p0 :: pairs, acc, ⟨p, hp, hph⟩ => by
    simp only [finalizeBaseAux]
    by_cases hh : hashablePy p0.1 = true
    · rw [if_pos hh]
      refine finalizeBaseAux_none mapping pairs _ ⟨p, ?_, hph⟩
      rcases List.mem_cons.mp hp with rfl | hp'
      · exact absurd hh (by simp [hph])
      · exact hp'
    · rw [if_neg hh]

/-- C2 counterexample: a whitespace-only string does not clean to the
sentinel — `clean_text("   ")` returns the empty string. -/
theorem C2_counterexample :
    clean_text (.vStr "   ") none = "" ∧ clean_text (.vStr "   ") none ≠ "Unknown" := by
  constructor
  · decide
  · decide

/-- A list- or dict-valued original anywhere in the batch makes
`cluster_similar_values` raise (`none`): its key assignment in the final
loop is unhashable. -/
theorem cluster_similar_values_unhashable (category : Option String) (t : ℚ) :
    ∀ (value_list : List PyVal) (v : PyVal), v ∈ value_list →
      hashablePy v = false →
      cluster_similar_values value_list category t = none := by
  intro value_list v hv hvh
  match value_list, hv with
  | a :: as, hv =>
    rw [cluster_similar_values]
    simp only [List.isEmpty_cons, Bool.false_eq_true, if_false, apply_direct_mappings,
      List.map_map, finalizeBase]
    exact finalizeBaseAux_none _ _ _
      ⟨(v, applyDirectCat synonym_mappings category (clean_text v category)),
        zip_map_mem _ _ v hv, hvh⟩

/-- C2 amended: `None`, the empty string, and every non-string input clean to
the sentinel `"Unknown"` (whitespace-only strings instead clean to `""`, see
the counterexample). When the `cluster_similar_values` pipeline of
`data_normaliser.py` returns, any input whose cleaned value is the sentinel
is mapped to the label `"Unknown"`; but for a truthy list- or dict-valued
input the pipeline does not return at all — the final loop raises
`TypeError: unhashable type` at `original_to_canonical[original]`. The
sentinel is never placed in any cluster. -/
theorem C2_sentinel (category : Option String) (t : ℚ) :
    (∀ cat2 : Option String, clean_text .vNone cat2 = "Unknown" ∧
      clean_text (.vStr "") cat2 = "Unknown" ∧
      (∀ b, clean_text (.vBool b) cat2 = "Unknown") ∧
      clean_text .vDictNil cat2 = "Unknown" ∧
      (∀ k v r, clean_text (.vDictCons k v r) cat2 = "Unknown") ∧
      (∀ xs, clean_text (.vStrList xs) cat2 = "Unknown")) ∧
    (∀ (value_list : List PyVal) (v : PyVal), v ∈ value_list →
      clean_text v category = "Unknown" →
      ∀ r, cluster_similar_values value_list category t = some r →
        assocGet v r.1 = some "Unknown") ∧
    (∀ (value_list : List PyVal) (v : PyVal), v ∈ value_list →
      hashablePy v = false →
      cluster_similar_values value_list category t = none) ∧
    (∀ cleaned : List String,
      "Unknown" ∉ (makeClusters (simGT t) (sortedValues cleaned)).flatten) := by
  refine ⟨fun cat2 => ⟨rfl, rfl, fun _ => rfl, rfl, fun _ _ _ => rfl, fun _ => rfl⟩,
    ?_, ?_, fun cleaned h => ((mem_makeClusters_join _ _ _).mp h).2 rfl⟩
  · intro value_list v hv hclean r hr
    match value_list, hv with
    | a :: as, hv =>
      rw [cluster_similar_values] at hr
      simp only [List.isEmpty_cons, Bool.false_eq_true, if_false, apply_direct_mappings,
        List.map_map, finalizeBase] at hr
      refine assocGet_finalizeBase_fold _ v "Unknown" _ _ r hr ?_ ?_
      · intro p hp hpv
        have hp2 := zip_map_snd _ _ p hp
        rw [hp2, Function.comp_apply, hpv, hclean, applyDirectCat_unknown_base, canonOf,
          if_pos rfl]
      · exact Or.inr ⟨(v, applyDirectCat synonym_mappings category (clean_text v category)),
          zip_map_mem _ _ v hv, rfl⟩
  · exact cluster_similar_values_unhashable category t

unseal Rat.mul Rat.inv Rat.add Rat.sub in
/-- C2 witness: in the batch `[None, "x"]` the pipeline returns, and the
`None` input is mapped to the label `"Unknown"`. -/
theorem C2_sentinel_witness :
    (PyVal.vNone ∈ [PyVal.vNone, PyVal.vStr "x"] ∧
     cluster_similar_values [PyVal.vNone, PyVal.vStr "x"] none (17 / 20) =
       some ((cluster_similar_values [PyVal.vNone, PyVal.vStr "x"] none (17 / 20)).getD
         ([], []))) ∧
    assocGet PyVal.vNone
      ((cluster_similar_values [PyVal.vNone, PyVal.vStr "x"] none (17 / 20)).getD ([], [])).1
      = some "Unknown" :=
  ⟨⟨by decide, by decide⟩,
   (C2_sentinel none (17 / 20)).2.1 [PyVal.vNone, PyVal.vStr "x"] PyVal.vNone (by decide) rfl
     ((cluster_similar_values [PyVal.vNone, PyVal.vStr "x"] none (17 / 20)).getD ([], []))
     (by decide)⟩

/-! ## Claim C7 — per-document labels of `normalise_field_values` -/

unseal Rat.mul Rat.inv Rat.add Rat.sub in
theorem applyDirectValue_lowunknown_subject_base :
    applyDirectValue [("graphic design",
      ["graphics", "graphics and photography", "graphic design visual communications"]),
     ("information technology", ["it", "btec it"]),
     ("biology chemistry mathematics",
      ["biology chemistry maths", "chemistry biology maths"]),
     ("animal management", ["animal care", "animal welfare", "animal care and welfare"]),
     ("construction", ["multi-trade construction", "multi trade"])] "unknown" = "unknown" := by
  decide

theorem applyDirectCat_lowunknown_base (category : Option String) :
    applyDirectCat synonym_mappings category "unknown" = "unknown" := by
  match category with
  | none => rfl
  | some cat =>
    by_cases hc : cat = "subject"
    · subst hc
      show applyDirectValue _ "unknown" = "unknown"
      exact applyDirectValue_lowunknown_subject_base
    · have hb : (cat == "subject") = false := beq_eq_false_iff_ne.mpr hc
      have hl : synonym_mappings.lookup cat = none := by
        simp [synonym_mappings, List.lookup, hb]
      simp [applyDirectCat, hl]

/-- The string `"Unknown"` (as produced for a missing field) is itself
cleaned like any other string: it lowercases to `"unknown"`, for every
category. -/
theorem clean_unknown_str (category : Option String) :
    clean_text (.vStr "Unknown") category = "unknown" := by
  match category with
  | none => decide
  | some cat =>
    by_cases h1 : cat = "college"
    · subst h1; decide
    · by_cases h2 : cat = "subject"
      · subst h2; decide
      · have hb1 : (cat == "college") = false := beq_eq_false_iff_ne.mpr h1
        have hb2 : (cat == "subject") = false := beq_eq_false_iff_ne.mpr h2
        have hl : category_patterns.lookup cat = none := by
          simp [category_patterns, List.lookup, hb1, hb2]
        show (if ("Unknown" : String) = "" then "Unknown"
          else String.mk (collapseWS ((applyCategoryPatterns (some cat)
            ((pyReSub matchRedacted [] "Unknown".data).map Char.toLower)).map stripChar)))
          = "unknown"
        rw [if_neg (by decide)]
        simp only [applyCategoryPatterns, hl]
        decide

theorem extractValue_malformed (d : PyVal) (fp : String)
    (h : walkPath d (splitDot fp) = .vNone) : extractValue d fp = .vStr "Unknown" := by
  simp only [extractValue, h]
  rfl

theorem getD_map_of_lt {α β : Type} (f : α → β) (l : List α) (i : Nat) (hi : i < l.length)
    (d : β) (d' : α) : (l.map f).getD i d = f (l.getD i d') := by
  rw [List.getD_eq_getElem?_getD, List.getElem?_map, List.getD_eq_getElem?_getD,
    List.getElem?_eq_getElem hi]
  rfl

theorem getD_mem_of_lt {α : Type} (l : List α) (i : Nat) (hi : i < l.length) (d : α) :
    l.getD i d ∈ l := by
  rw [List.getD_eq_getElem?_getD, List.getElem?_eq_getElem hi]
  exact List.getElem_mem hi

/-- When the cleaned value `"unknown"` is similar to no other cleaned value
of the batch, its cluster is the singleton and its canonical label is its
title case `"Unknown"`. -/
theorem mapping_unknown_label (cleaned : List String) (t : ℚ)
    (hu : "unknown" ∈ cleaned)
    (hsim : ∀ w ∈ cleaned, w ≠ "unknown" →
      simGT t "unknown" w = false ∧ simGT t w "unknown" = false) :
    assocGet "unknown" (buildMapping (fun w => cleaned.count w)
      (makeClusters (simGT t) (sortedValues cleaned))) = some "Unknown" := by
  have husvs : "unknown" ∈ (makeClusters (simGT t) (sortedValues cleaned)).flatten :=
    (mem_makeClusters_join _ _ _).mpr ⟨(sortedValues_mem _ _).mpr hu, by decide⟩
  obtain ⟨cl, hcl, hucl⟩ := List.mem_flatten.mp husvs
  have hclu : cl = ["unknown"] := makeClusters_singleton _ _ _
    (fun v hv hne => hsim v ((sortedValues_mem _ _).mp hv) hne) cl hcl hucl
  subst hclu
  rw [assocGet_buildMapping_mem _ _ _ ["unknown"] hcl hucl
    (List.nodup_flatten.mp (makeClusters_join_nodup _ _)).2]
  have hmx : pyMaxByCount (fun w => cleaned.count w) ["unknown"] = "unknown" := rfl
  rw [hmx]
  decide

unseal Rat.mul Rat.inv Rat.add Rat.sub in
/-- C7 counterexample: in a batch of five documents whose field value is
`"unknowns"` and one document with the field missing, the missing-field
document receives the label `"Unknowns"`, not `"Unknown"`: the string
`"Unknown"` substituted for the missing value lowercases to `"unknown"`,
which the similarity clustering absorbs into the `"unknowns"` cluster. -/
theorem C7_counterexample :
    (let docs : List PyVal := [pyDict [("f", .vStr "unknowns")],
      pyDict [("f", .vStr "unknowns")], pyDict [("f", .vStr "unknowns")],
      pyDict [("f", .vStr "unknowns")], pyDict [("f", .vStr "unknowns")], pyDict []]
    dictGet "f" (pyDict []) = none ∧
    (normalise_field_values docs "f" none).map (fun r => r.1.getD 5 "") = some "Unknowns" ∧
    (normalise_field_values docs "f" none).map (fun r => r.1.getD 5 "") ≠ some "Unknown") := by
  refine ⟨rfl, ?_, ?_⟩ <;> decide

/-- C7 amended: when `normalise_field_values` returns, it returns exactly
one label per document; it raises `TypeError` instead whenever a document's
path resolves to a list or dict value (an unhashable dict key in the final
loop of `cluster_similar_values`); and a document with a malformed path
receives the label `"Unknown"` provided the cleaned value `"unknown"` that
stands in for the missing field is similar to no other cleaned value of the
batch — otherwise the similarity clustering may absorb it into another
cluster (see the counterexample). -/
theorem C7_normalise_field (documents : List PyVal) (field_path : String)
    (category : Option String) (i : Nat) (hi : i < documents.length)
    (hmal : walkPath (documents.getD i .vNone) (splitDot field_path) = .vNone)
    (hsim : ∀ w ∈ documents.map (fun d => applyDirectCat synonym_mappings category
        (clean_text (extractValue d field_path) category)), w ≠ "unknown" →
      simGT (17 / 20) "unknown" w = false ∧ simGT (17 / 20) w "unknown" = false)
    (r : List String × List (PyVal × String) × List (String × List PyVal))
    (hr : normalise_field_values documents field_path category = some r) :
    (∀ (docs2 : List PyVal) (fp2 : String) (cat2 : Option String) r2,
      normalise_field_values docs2 fp2 cat2 = some r2 →
      r2.1.length = docs2.length) ∧
    (∀ (docs2 : List PyVal) (fp2 : String) (cat2 : Option String) (d : PyVal), d ∈ docs2 →
      hashablePy (extractValue d fp2) = false →
      normalise_field_values docs2 fp2 cat2 = none) ∧
    r.1.getD i "" = "Unknown" := by
  refine ⟨?_, ?_, ?_⟩
  · intro docs2 fp2 cat2 r2 hr2
    simp only [normalise_field_values] at hr2
    cases hcl : cluster_similar_values (docs2.map (fun doc => extractValue doc fp2))
        cat2 (17 / 20) with
    | none => rw [hcl] at hr2; exact absurd hr2 (by simp)
    | some p =>
      rw [hcl] at hr2
      have hr3 : ((docs2.map (fun doc => extractValue doc fp2)).map
          (fun v => (assocGet v p.1).getD "Unknown"), p.1, p.2) = r2 := by
        simpa using hr2
      rw [← hr3]
      simp
  · intro docs2 fp2 cat2 d hd hdh
    simp only [normalise_field_values]
    rw [cluster_similar_values_unhashable cat2 (17 / 20)
      (docs2.map (fun doc => extractValue doc fp2)) (extractValue d fp2)
      (List.mem_map_of_mem (fun doc => extractValue doc fp2) hd) hdh]
    rfl
  · have hex : extractValue (documents.getD i .vNone) field_path = .vStr "Unknown" :=
      extractValue_malformed _ _ hmal
    have hexmem : PyVal.vStr "Unknown" ∈ documents.map (fun d => extractValue d field_path) := by
      rw [← hex]
      exact List.mem_map_of_mem _ (getD_mem_of_lt documents i hi .vNone)
    have hsim2 : ∀ w ∈ (documents.map (fun d => extractValue d field_path)).map
        (fun v => applyDirectCat synonym_mappings category (clean_text v category)),
        w ≠ "unknown" →
        simGT (17 / 20) "unknown" w = false ∧ simGT (17 / 20) w "unknown" = false := by
      intro w hw hne
      refine hsim w ?_ hne
      rw [List.map_map] at hw
      exact hw
    simp only [normalise_field_values] at hr
    cases hcl : cluster_similar_values (documents.map (fun doc => extractValue doc field_path))
        category (17 / 20) with
    | none => rw [hcl] at hr; exact absurd hr (by simp)
    | some p =>
      rw [hcl] at hr
      have hr3 : ((documents.map (fun doc => extractValue doc field_path)).map
          (fun v => (assocGet v p.1).getD "Unknown"), p.1, p.2) = r := by
        simpa using hr
      rw [← hr3]
      show ((documents.map (fun doc => extractValue doc field_path)).map
        (fun v => (assocGet v p.1).getD "Unknown")).getD i "" = "Unknown"
      rw [getD_map_of_lt _ _ i (by simpa using hi) _ PyVal.vNone,
        getD_map_of_lt _ _ i hi _ PyVal.vNone, hex]
      generalize hvals : documents.map (fun d => extractValue d field_path) = values
        at hexmem hsim2 hcl
      have hne2 : ¬(values.isEmpty = true) := by
        intro hcontra
        rw [List.isEmpty_iff] at hcontra
        rw [hcontra] at hexmem
        exact absurd hexmem (List.not_mem_nil _)
      rw [cluster_similar_values, if_neg hne2] at hcl
      dsimp only at hcl
      have hform : apply_direct_mappings synonym_mappings
          (values.map (fun v => clean_text v category)) category
          = values.map (fun v => applyDirectCat synonym_mappings category
              (clean_text v category)) := by
        simp only [apply_direct_mappings, List.map_map]
        rfl
      rw [hform] at hcl
      have humem : ("unknown" : String) ∈ values.map
          (fun v => applyDirectCat synonym_mappings category (clean_text v category)) := by
        have h2 : ("unknown" : String) = applyDirectCat synonym_mappings category
            (clean_text (PyVal.vStr "Unknown") category) := by
          rw [clean_unknown_str, applyDirectCat_lowunknown_base]
        rw [h2]
        exact List.mem_map_of_mem _ hexmem
      have hlab := mapping_unknown_label
        (values.map (fun v => applyDirectCat synonym_mappings category (clean_text v category)))
        (17 / 20) humem hsim2
      simp only [finalizeBase] at hcl
      have hget := assocGet_finalizeBase_fold
        (buildMapping (fun w => (values.map (fun v => applyDirectCat synonym_mappings category
          (clean_text v category))).count w)
          (makeClusters (simGT (17 / 20)) (sortedValues (values.map (fun v =>
            applyDirectCat synonym_mappings category (clean_text v category))))))
        (PyVal.vStr "Unknown") "Unknown"
        (values.zip (values.map (fun v => applyDirectCat synonym_mappings category
          (clean_text v category)))) ([], []) p hcl
        (by
          intro q hq hqv
          have hq2 := zip_map_snd _ _ q hq
          rw [hq2, hqv, clean_unknown_str, applyDirectCat_lowunknown_base, canonOf,
            if_neg (by decide), hlab]
          rfl)
        (Or.inr ⟨(PyVal.vStr "Unknown", applyDirectCat synonym_mappings category
            (clean_text (PyVal.vStr "Unknown") category)),
          zip_map_mem _ _ _ hexmem, rfl⟩)
      rw [hget]
      rfl

unseal Rat.mul Rat.inv Rat.add Rat.sub in
/-- C7 witness: a single document lacking the requested field — the pipeline
returns, and that document receives exactly one label, namely `"Unknown"`. -/
theorem C7_normalise_field_witness :
    (walkPath (([pyDict [("g", PyVal.vStr "x")]] : List PyVal).getD 0 .vNone)
        (splitDot "f") = .vNone ∧
     normalise_field_values [pyDict [("g", PyVal.vStr "x")]] "f" none =
       some ((normalise_field_values [pyDict [("g", PyVal.vStr "x")]] "f" none).getD
         ([], [], []))) ∧
    ((∀ (docs2 : List PyVal) (fp2 : String) (cat2 : Option String) r2,
        normalise_field_values docs2 fp2 cat2 = some r2 →
        r2.1.length = docs2.length) ∧
     (∀ (docs2 : List PyVal) (fp2 : String) (cat2 : Option String) (d : PyVal), d ∈ docs2 →
        hashablePy (extractValue d fp2) = false →
        normalise_field_values docs2 fp2 cat2 = none) ∧
     ((normalise_field_values [pyDict [("g", PyVal.vStr "x")]] "f" none).getD
       ([], [], [])).1.getD 0 "" = "Unknown") :=
  ⟨⟨by decide, by decide⟩,
   C7_normalise_field [pyDict [("g", PyVal.vStr "x")]] "f" none 0 (by decide)
     (by decide) (by decide)
     ((normalise_field_values [pyDict [("g", PyVal.vStr "x")]] "f" none).getD ([], [], []))
     (by decide)⟩

/-! ## Claim C8 — idempotence of cleaning -/

theorem char_toNat_ofNat (n : Nat) (h : n < 55296) : (Char.ofNat n).toNat = n := by
  rw [Char.ofNat, dif_pos (Or.inl h)]
  simp [Char.ofNatAux, Char.toNat, UInt32.ofNat', UInt32.toNat]

theorem toLower_fix (c : Char) (h : ¬(c.toNat ≥ 65 ∧ c.toNat ≤ 90)) : Char.toLower c = c := by
  simp only [Char.toLower]
  rw [if_neg h]

theorem toLower_not_upper (c : Char) :
    ¬((Char.toLower c).toNat ≥ 65 ∧ (Char.toLower c).toNat ≤ 90) := by
  simp only [Char.toLower]
  by_cases h : c.toNat ≥ 65 ∧ c.toNat ≤ 90
  · rw [if_pos h, char_toNat_ofNat _ (by omega)]
    omega
  · rw [if_neg h]
    exact h

theorem toLower_toLower (c : Char) : (Char.toLower c).toLower = Char.toLower c :=
  toLower_fix _ (toLower_not_upper c)

/-- The redaction scrub is the identity on text without an opening bracket. -/
theorem reSubAux_redacted_id :
    ∀ (fuel : Nat) (prev : Option Char) (l : List Char), (∀ c ∈ l, c ≠ '[') →
      reSubAux matchRedacted [] fuel prev l = l
  | 0, _, _, _ => rfl
  | _ + 1, _, [], _ => rfl
  | fuel + 1, prev, c :: cs, h => by
    have hc : c ≠ '[' := h c (List.mem_cons_self _ _)
    have hm : matchRedacted prev (c :: cs) = none := by
      show (match matchLit ('[' :: "redacted:".data) (c :: cs) with
        | none => none
        | some rest => (scanCloseBracket rest).map (fun n => 10 + n)) = none
      rw [matchLit, if_neg hc]
    simp only [reSubAux, hm]
    exact congrArg (c :: ·)
      (reSubAux_redacted_id fuel _ cs (fun x hx => h x (List.mem_cons_of_mem _ hx)))

theorem pyReSub_redacted_id (l : List Char) (h : ∀ c ∈ l, c ≠ '[') :
    pyReSub matchRedacted [] l = l :=
  reSubAux_redacted_id l.length none l h

theorem wsSplitAux_chars :
    ∀ (l acc : List Char) (p : List Char), p ∈ wsSplitAux acc l → ∀ c ∈ p, c ∈ l ∨ c ∈ acc
  | [], acc, p, hp, c, hc => by
    rw [wsSplitAux] at hp
    by_cases hacc : acc.isEmpty
    · rw [if_pos hacc] at hp
      exact absurd hp (List.not_mem_nil p)
    · rw [if_neg hacc] at hp
      rw [List.mem_singleton] at hp
      subst hp
      exact Or.inr (List.mem_reverse.mp hc)
  | a :: l, acc, p, hp, c, hc => by
    rw [wsSplitAux] at hp
    by_cases hsp : isSpChar a = true
    · rw [if_pos hsp] at hp
      by_cases hacc : acc.isEmpty
      · rw [if_pos hacc] at hp
        rcases wsSplitAux_chars l [] p hp c hc with h | h
        · exact Or.inl (List.mem_cons_of_mem _ h)
        · exact absurd h (List.not_mem_nil c)
      · rw [if_neg hacc] at hp
        rcases List.mem_cons.mp hp with rfl | hp'
        · exact Or.inr (List.mem_reverse.mp hc)
        · rcases wsSplitAux_chars l [] p hp' c hc with h | h
          · exact Or.inl (List.mem_cons_of_mem _ h)
          · exact absurd h (List.not_mem_nil c)
    · rw [if_neg hsp] at hp
      rcases wsSplitAux_chars l (a :: acc) p hp c hc with h | h
      · exact Or.inl (List.mem_cons_of_mem _ h)
      · rcases List.mem_cons.mp h with rfl | h'
        · exact Or.inl (List.mem_cons_self _ _)
        · exact Or.inr h'

theorem wsSplitAux_good :
    ∀ (l acc : List Char), (∀ c ∈ acc, isSpChar c = false) →
      ∀ p ∈ wsSplitAux acc l, p ≠ [] ∧ ∀ c ∈ p, isSpChar c = false
  | [], acc, hacc, p, hp => by
    rw [wsSplitAux] at hp
    by_cases he : acc.isEmpty
    · rw [if_pos he] at hp
      exact absurd hp (List.not_mem_nil p)
    · rw [if_neg he] at hp
      rw [List.mem_singleton] at hp
      subst hp
      refine ⟨fun hcon => he ?_, fun c hc => hacc c (List.mem_reverse.mp hc)⟩
      rw [List.isEmpty_iff]
      rw [← List.reverse_reverse acc, hcon]
      rfl
  | a :: l, acc, hacc, p, hp => by
    rw [wsSplitAux] at hp
    by_cases hsp : isSpChar a = true
    · rw [if_pos hsp] at hp
      by_cases he : acc.isEmpty
      · rw [if_pos he] at hp
        exact wsSplitAux_good l [] (by simp) p hp
      · rw [if_neg he] at hp
        rcases List.mem_cons.mp hp with rfl | hp'
        · refine ⟨fun hcon => he ?_, fun c hc => hacc c (List.mem_reverse.mp hc)⟩
          rw [List.isEmpty_iff]
          rw [← List.reverse_reverse acc, hcon]
          rfl
        · exact wsSplitAux_good l [] (by simp) p hp'
    · rw [if_neg hsp] at hp
      refine wsSplitAux_good l (a :: acc) ?_ p hp
      intro c hc
      rcases List.mem_cons.mp hc with rfl | hc'
      · exact Bool.eq_false_iff.mpr hsp
      · exact hacc c hc'

theorem joinSp_chars :
    ∀ (parts : List (List Char)) (c : Char), c ∈ joinSp parts →
      (∃ p ∈ parts, c ∈ p) ∨ c = ' '
  | [], c, hc => absurd hc (List.not_mem_nil c)
  | [p], c, hc => Or.inl ⟨p, List.mem_singleton_self p, hc⟩
  | p :: q :: rest, c, hc => by
    rw [joinSp] at hc
    rcases List.mem_append.mp hc with h | h
    · exact Or.inl ⟨p, List.mem_cons_self _ _, h⟩
    · rcases List.mem_cons.mp h with rfl | h'
      · exact Or.inr rfl
      · rcases joinSp_chars (q :: rest) c h' with ⟨p', hp', hcp'⟩ | h''
        · exact Or.inl ⟨p', List.mem_cons_of_mem _ hp', hcp'⟩
        · exact Or.inr h''

theorem collapseWS_chars (l : List Char) (c : Char) (hc : c ∈ collapseWS l) :
    c ∈ l ∨ c = ' ' := by
  rcases joinSp_chars _ c hc with ⟨p, hp, hcp⟩ | h
  · rcases wsSplitAux_chars l [] p hp c hcp with h | h
    · exact Or.inl h
    · exact absurd h (List.not_mem_nil c)
  · exact Or.inr h

/-- Characters of the collapsed text are non-space characters of the input or
single separating spaces. -/
theorem collapseWS_chars_good (l : List Char) (c : Char) (hc : c ∈ collapseWS l) :
    (c ∈ l ∧ isSpChar c = false) ∨ c = ' ' := by
  rcases joinSp_chars _ c hc with ⟨p, hp, hcp⟩ | h
  · obtain ⟨_, hgood⟩ := wsSplitAux_good l [] (by simp) p hp
    rcases wsSplitAux_chars l [] p hp c hcp with h | h
    · exact Or.inl ⟨h, hgood c hcp⟩
    · exact absurd h (List.not_mem_nil c)
  · exact Or.inr h

theorem wsSplitAux_run :
    ∀ (p acc l : List Char), (∀ c ∈ p, isSpChar c = false) →
      wsSplitAux acc (p ++ l) = wsSplitAux (p.reverse ++ acc) l
  | [], acc, l, _ => by simp
  | a :: p, acc, l, h => by
    rw [List.cons_append, wsSplitAux, if_neg (by
      rw [h a (List.mem_cons_self _ _)]; exact Bool.false_ne_true),
      wsSplitAux_run p (a :: acc) l (fun c hc => h c (List.mem_cons_of_mem _ hc))]
    rw [List.reverse_cons, List.append_assoc]
    rfl

theorem wsSplit_joinSp :
    ∀ (parts : List (List Char)),
      (∀ p ∈ parts, p ≠ [] ∧ ∀ c ∈ p, isSpChar c = false) →
      wsSplit (joinSp parts) = parts
  | [], _ => rfl
  | [p], h => by
    obtain ⟨hne, hgood⟩ := h p (List.mem_singleton_self p)
    show wsSplitAux [] p = [p]
    have hrun := wsSplitAux_run p [] [] hgood
    rw [List.append_nil, List.append_nil] at hrun
    rw [hrun, wsSplitAux, if_neg (by simp [List.isEmpty_iff, hne]), List.reverse_reverse]
  | p :: q :: rest, h => by
    obtain ⟨hne, hgood⟩ := h p (List.mem_cons_self _ _)
    show wsSplitAux [] (p ++ ' ' :: joinSp (q :: rest)) = p :: q :: rest
    rw [wsSplitAux_run p [] _ hgood, List.append_nil, wsSplitAux, if_pos (by decide),
      if_neg (by simp [List.isEmpty_iff, hne]), List.reverse_reverse]
    exact congrArg (p :: ·)
      (wsSplit_joinSp (q :: rest) (fun x hx => h x (List.mem_cons_of_mem _ hx)))

theorem collapseWS_idem (l : List Char) : collapseWS (collapseWS l) = collapseWS l := by
  show joinSp (wsSplit (joinSp (wsSplit l))) = joinSp (wsSplit l)
  rw [wsSplit_joinSp (wsSplit l) (wsSplitAux_good l [] (by simp))]

/-- C8 counterexample: cleaning is not idempotent. Cleaning `"."` (any
category) yields `""`, which re-cleans to `"Unknown"`; and with the `subject`
category, `"level.3"` cleans to `"level 3"` — a lowercase, punctuation-free,
single-spaced string — which re-cleans to `""` because the `level \d+` rule
now matches. -/
theorem C8_counterexample :
    (cleanStr "." none = "" ∧ cleanStr (cleanStr "." none) none = "Unknown" ∧
      cleanStr (cleanStr "." none) none ≠ cleanStr "." none) ∧
    (cleanStr "level.3" (some "subject") = "level 3" ∧
      cleanStr (cleanStr "level.3" (some "subject")) (some "subject") = "" ∧
      cleanStr (cleanStr "level.3" (some "subject")) (some "subject")
        ≠ cleanStr "level.3" (some "subject")) := by
  refine ⟨⟨?_, ?_, ?_⟩, ?_, ?_, ?_⟩ <;> decide

/-- C8 amended: for a category without registered cleaning rules, cleaning is
idempotent on every input whose cleaned value is neither `""` nor
`"Unknown"`: the cleaned value is a fixed point of `clean_text`. (Cleaned
values `""` re-clean to `"Unknown"`, the sentinel `"Unknown"` re-cleans to
`"unknown"`, and the `subject` rules can re-fire on their own output — see
the counterexample.) -/
theorem C8_clean_idempotent (x : String) (category : Option String)
    (hpat : ∀ l, applyCategoryPatterns category l = l)
    (hne : cleanStr x category ≠ "") (hnu : cleanStr x category ≠ "Unknown") :
    cleanStr (cleanStr x category) category = cleanStr x category := by
  by_cases hx : x = ""
  · refine absurd ?_ hnu
    rw [hx]
    rfl
  · have hy : cleanStr x category = String.mk (collapseWS
        (((pyReSub matchRedacted [] x.data).map Char.toLower).map stripChar)) := by
      show clean_text (.vStr x) category = _
      simp only [clean_text]
      rw [if_neg hx, hpat]
    set z := ((pyReSub matchRedacted [] x.data).map Char.toLower).map stripChar with hz
    have hzlower : ∀ c ∈ z, ∃ e, c = Char.toLower e := by
      intro c hc
      rw [hz] at hc
      rcases List.mem_map.mp hc with ⟨d, hd, hdc⟩
      rcases List.mem_map.mp hd with ⟨e, _, hed⟩
      by_cases hw : (isWordChar d || isSpChar d) = true
      · exact ⟨e, by rw [← hdc, stripChar, if_pos hw, ← hed]⟩
      · refine ⟨' ', ?_⟩
        rw [← hdc, stripChar, if_neg hw]
        decide
    have hzws : ∀ c ∈ z, (isWordChar c || isSpChar c) = true := by
      intro c hc
      rw [hz] at hc
      rcases List.mem_map.mp hc with ⟨d, _, hdc⟩
      by_cases hw : (isWordChar d || isSpChar d) = true
      · rw [← hdc, stripChar, if_pos hw]
        exact hw
      · rw [← hdc, stripChar, if_neg hw]
        decide
    have hwchars : ∀ c ∈ collapseWS z,
        ((isWordChar c = true ∧ isSpChar c = false) ∨ c = ' ') := by
      intro c hc
      rcases collapseWS_chars_good z c hc with ⟨hcz, hcs⟩ | h
      · refine Or.inl ⟨?_, hcs⟩
        have := hzws c hcz
        rcases Bool.or_eq_true_iff.mp this with h | h
        · exact h
        · rw [h] at hcs
          exact absurd hcs (by simp)
      · exact Or.inr h
    rw [hy]
    show clean_text (.vStr (String.mk (collapseWS z))) category = _
    simp only [clean_text]
    rw [if_neg (hy ▸ hne)]
    rw [hpat]
    have hred : pyReSub matchRedacted [] (String.mk (collapseWS z)).data = collapseWS z := by
      apply pyReSub_redacted_id
      intro c hc
      rcases hwchars c hc with ⟨hw, _⟩ | h
      · intro hcon
        rw [hcon] at hw
        exact absurd hw (by decide)
      · rw [h]
        decide
    rw [hred]
    have hlow : (collapseWS z).map Char.toLower = collapseWS z := by
      have hfix : ∀ c ∈ collapseWS z, Char.toLower c = c := by
        intro c hc
        rcases collapseWS_chars z c hc with hcz | h
        · obtain ⟨e, he⟩ := hzlower c hcz
          rw [he, toLower_toLower]
        · rw [h]
          decide
      rw [List.map_congr_left hfix]
      simp
    have hstrip : (collapseWS z).map stripChar = collapseWS z := by
      have hfix : ∀ c ∈ collapseWS z, stripChar c = c := by
        intro c hc
        rcases hwchars c hc with ⟨hw, _⟩ | h
        · rw [stripChar, if_pos (by rw [hw]; rfl)]
        · rw [h]
          decide
      rw [List.map_congr_left hfix]
      simp
    rw [hlow, hstrip, collapseWS_idem]

/-- C8 witness: `"Maths!"` with no category cleans to `"maths"`, which is a
fixed point of cleaning. -/
theorem C8_clean_idempotent_witness :
    (cleanStr "Maths!" none ≠ "" ∧ cleanStr "Maths!" none ≠ "Unknown") ∧
    cleanStr (cleanStr "Maths!" none) none = cleanStr "Maths!" none :=
  ⟨⟨by decide, by decide⟩,
   C8_clean_idempotent "Maths!" none (fun _ => rfl) (by decide) (by decide)⟩

/-! ## Update payloads (`generate_stats_with_normalised_values`, student
variant, lines 479-647)

The statistics tallies of the function do not influence the `docs_to_update`
payloads, which are what claims C9 and C10 concern; the embedding therefore
covers the per-document payload construction (including the `gender_clusters`
lookup it uses) and leaves the independent `stats` counters aside. Python
operations that can raise on ill-typed documents (`.strip()`, `.lower()`,
string concatenation, `in` on a non-container) are modelled in `Option`. -/

/-- Model of `re.search(pattern, text) is not None`: try the matcher at every
position. -/
def searchAux (m : Matcher) : Option Char → List Char → Bool
  | prev, [] => (m prev []).isSome
  | prev, c :: cs => (m prev (c :: cs)).isSome || searchAux m (some c) cs

/-- Existence of a regex match anywhere in the text. -/
def reSearch (m : Matcher) (l : List Char) : Bool := searchAux m none l

/-- Regex alternation: the first alternative matching at a position wins. -/
def matchAlt (m1 m2 : Matcher) : Matcher := fun prev l =>
  match m1 prev l with
  | some n => some n
  | none => m2 prev l

/-- Matcher for `\b[xX][\s-]levels?\b` (the first alternative of the
`A-levels` / `T-levels` course patterns). -/
def matchCourseLevels (lo hi : Char) : Matcher := fun prev l =>
  if boundaryBefore prev then
    match l with
    | c0 :: c1 :: rest =>
      if (c0 = lo || c0 = hi) && (isSpChar c1 || c1 = '-') then
        match matchLit "level".data rest with
        | some rest2 =>
          match rest2 with
          | 's' :: rest3 =>
            if boundaryAfter rest3 then some 8
            else if boundaryAfter rest2 then some 7 else none
          | _ => if boundaryAfter rest2 then some 7 else none
        | none => none
      else none
    | _ => none
  else none

/-- Matcher for `\b[xX] level\b` (the second alternative of the course
patterns). -/
def matchCourseLevelSp (lo hi : Char) : Matcher := fun prev l =>
  if boundaryBefore prev then
    match l with
    | c0 :: c1 :: rest =>
      if (c0 = lo || c0 = hi) && c1 = ' ' then
        match matchLit "level".data rest with
        | some rest2 => if boundaryAfter rest2 then some 7 else none
        | none => none
      else none
    | _ => none
  else none

/-- The `subject_patterns` table (searched on the lowercased study field plus
transcript; the `\bIT\b` pattern is embedded as written and can never match
lowercased text). -/
def subject_patterns : List (String × List Matcher) :=
  [("Mathematics", [matchWordLit "maths".data, matchWordLit "mathematics".data,
    matchWordLit "further maths".data]),
   ("Biology", [matchWordLit "biology".data, matchWordLit "bio".data]),
   ("Chemistry", [matchWordLit "chemistry".data, matchWordLit "chem".data]),
   ("Physics", [matchWordLit "physics".data]),
   ("Psychology", [matchWordLit "psychology".data, matchWordLit "psych".data]),
   ("English", [matchWordLit "english".data]),
   ("Computer Science", [matchWordLit "computer science".data, matchWordLit "computing".data,
    matchWordLit "IT".data, matchWordLit "information technology".data]),
   ("Business", [matchWordLit "business".data, matchWordLit "economics".data]),
   ("Art & Design", [matchWordLit "art".data, matchWordLit "design".data,
    matchWordLit "graphics".data, matchWordLit "graphic design".data]),
   ("History", [matchWordLit "history".data]),
   ("Geography", [matchWordLit "geography".data]),
   ("Sociology", [matchWordLit "sociology".data]),
   ("Health & Social Care", [matchWordLit "health".data, matchWordLit "social care".data,
    matchWordLit "healthcare".data]),
   ("Engineering", [matchWordLit "engineering".data]),
   ("Media", [matchWordLit "media".data, matchWordLit "journalism".data]),
   ("Sport", [matchWordLit "sport".data, matchWordLit "pe".data,
    matchWordLit "physical education".data]),
   ("Animal Management", [matchWordLit "animal".data])]

/-- The `course_patterns` table (searched on the raw transcript). -/
def course_patterns : List (String × Matcher) :=
  [("A-levels", matchAlt (matchCourseLevels 'a' 'A') (matchCourseLevelSp 'a' 'A')),
   ("BTECs", matchAlt (matchWordLitOptS "btec".data) (matchWordLitOptS "BTEC".data)),
   ("Apprenticeships", matchAlt (matchWordLitOptS "apprenticeship".data)
     (matchWordLitOptS "Apprenticeship".data)),
   ("T-levels", matchAlt (matchCourseLevels 't' 'T') (matchCourseLevelSp 't' 'T'))]

/-- Python `str.lower()` (ASCII model). -/
def lowerStr (s : String) : String := String.mk (s.data.map Char.toLower)

/-- Python `k in v` for the modelled values: key test on dicts, substring
test on strings, membership on lists; `TypeError` (`none`) otherwise. -/
def pyIn (k : String) : PyVal → Option Bool
  | .vDictNil => some false
  | .vDictCons k' v r => some (dictGet k (.vDictCons k' v r)).isSome
  | .vStr s => some (strContains s k)
  | .vStrList xs => some (xs.contains k)
  | _ => none

/-- Python `v[k]` with a string key: only dicts support it. -/
def pyGetItem (k : String) : PyVal → Option PyVal
  | .vDictCons k' v r => dictGet k (.vDictCons k' v r)
  | _ => none

/-- The `elif "responses" in doc and doc["responses"] and "about_user" in
doc["responses"]` branch of the gender computation. -/
def genderFromResponses (doc : PyVal) : Option String :=
  match dictGet "responses" doc with
  | none => some "Unknown"
  | some responses =>
    if truthy responses then
      match pyIn "about_user" responses with
      | none => none
      | some false => some "Unknown"
      | some true =>
        match pyGetItem "about_user" responses with
        | none => none
        | some about_user =>
          match pyIn "gender" about_user with
          | none => none
          | some false => some "Unknown"
          | some true =>
            match pyGetItem "gender" about_user with
            | none => none
            | some g =>
              match g with
              | .vStr s =>
                let ls := lowerStr s
                if strContains ls "female" then some "Female"
                else if strContains ls "male" then some "Male"
                else if strContains ls "binary" then some "Non-binary"
                else some "Unknown"
              | _ => none
    else some "Unknown"

/-- The per-document gender of the update payload. -/
def genderOf (doc : PyVal) : Option String :=
  match dictGet "gender" doc with
  | some g =>
    if truthy g then
      match g with
      | .vStr s => some (pyStrip s)
      | _ => none
    else genderFromResponses doc
  | none => genderFromResponses doc

/-- The `elif` branch of the age-group computation (`over_25`). -/
def ageFromResponses (doc : PyVal) : Option String :=
  match dictGet "responses" doc with
  | none => some "Unknown"
  | some responses =>
    if truthy responses then
      match pyIn "about_user" responses with
      | none => none
      | some false => some "Unknown"
      | some true =>
        match pyGetItem "about_user" responses with
        | none => none
        | some about_user =>
          match pyIn "over_25" about_user with
          | none => none
          | some false => some "Unknown"
          | some true =>
            match pyGetItem "over_25" about_user with
            | none => none
            | some v => some (if truthy v then "Over 25" else "Under 25")
    else some "Unknown"

/-- The per-document age group of the update payload. -/
def ageOf (doc : PyVal) : Option String :=
  match dictGet "age_group" doc with
  | some a =>
    if truthy a then
      match a with
      | .vStr s => some (pyStrip s)
      | _ => none
    else ageFromResponses doc
  | none => ageFromResponses doc

/-- Lowercase all variations of one gender cluster
(`[v.lower() for v in variations]`); a non-string variation raises. -/
def lowerAll : List PyVal → Option (List String)
  | [] => some []
  | .vStr s :: rest => (lowerAll rest).map (lowerStr s :: ·)
  | _ :: _ => none

/-- The cluster scan of the college computation: the first cluster whose
lowercased variations contain the lowercased stripped college wins; the
stripped college survives unchanged otherwise. -/
def collegeScan (oc : String) : List (String × List PyVal) → Option String
  | [] => some oc
  | (name, variations) :: rest =>
    match lowerAll variations with
    | none => none
    | some lvs =>
      if lvs.contains (lowerStr oc) then some name
      else collegeScan oc rest

/-- The per-document college of the update payload: looked up in the GENDER
cluster info, as the source does. -/
def collegeOf (gender_clusters : List (String × List PyVal)) (doc : PyVal) : Option String :=
  match dictGet "college" doc with
  | some cval =>
    if truthy cval then
      match cval with
      | .vStr s => collegeScan (pyStrip s) gender_clusters
      | _ => none
    else some "Unknown"
  | none => some "Unknown"

/-- The guarded `responses.about_user.study_field` read (no truthiness test
on `responses` here, unlike the gender/age branches). -/
def studyFieldOf (doc : PyVal) : Option (Option PyVal) :=
  match dictGet "responses" doc with
  | none => some none
  | some responses =>
    match pyIn "about_user" responses with
    | none => none
    | some false => some none
    | some true =>
      match pyGetItem "about_user" responses with
      | none => none
      | some au =>
        match pyIn "study_field" au with
        | none => none
        | some false => some none
        | some true =>
          match pyGetItem "study_field" au with
          | none => none
          | some sf => some (some sf)

/-- The `if study_field: text_to_analyze += study_field + " "` contribution
(raises for a truthy non-string study field). -/
def textPart1 : Option PyVal → Option String
  | none => some ""
  | some sf =>
    if truthy sf then
      match sf with
      | .vStr s => some (s ++ " ")
      | _ => none
    else some ""

/-- The `if transcript: text_to_analyze += transcript` contribution. -/
def textPart2 (tval : PyVal) : Option String :=
  if truthy tval then
    match tval with
    | .vStr s => some s
    | _ => none
  else some ""

/-- One update payload: a full copy of the document with the five normalized
fields assigned on top, exactly as the loop body does. -/
def mkUpdate (gender_clusters : List (String × List PyVal)) (doc : PyVal) : Option PyVal := do
  let gender ← genderOf doc
  let age ← ageOf doc
  let college ← collegeOf gender_clusters doc
  let sfOpt ← studyFieldOf doc
  let tval := (dictGet "transcript" doc).getD (.vStr "")
  let t1 ← textPart1 sfOpt
  let t2 ← textPart2 tval
  let text := lowerStr (t1 ++ t2)
  let subjects := (subject_patterns.filter
    (fun e => e.2.any (fun m => reSearch m text.data))).map Prod.fst
  let courses := if truthy tval then
      (course_patterns.filter (fun e => reSearch e.2 t2.data)).map Prod.fst
    else []
  some (dictSet "course_types" (.vStrList courses)
    (dictSet "subjects" (.vStrList subjects)
      (dictSet "college" (.vStr college)
        (dictSet "age_group" (.vStr age)
          (dictSet "gender" (.vStr gender) doc)))))

/-- Sequence a fallible map over a list, aborting at the first failure (the
loop raises out of `generate_stats_with_normalised_values` at the first bad
document). -/
def optionMapList {α β : Type} (f : α → Option β) : List α → Option (List β)
  | [] => some []
  | a :: as =>
    match f a with
    | none => none
    | some b => (optionMapList f as).map (b :: ·)

/-- The `docs_to_update` result of the student
`generate_stats_with_normalised_values`: one payload per document, built
against the gender cluster info. -/
def generate_update_docs (documents : List PyVal) : Option (List PyVal) :=
  optionMapList
    (mkUpdate (student_normalise_field_values documents "gender" (some "gender")).2.2)
    documents

/-! ## Lemmas about dict assignment and the payload construction -/

/-- Reading back the key just assigned. -/
theorem dictGet_dictSet_self (k : String) (v : PyVal) :
    ∀ d, dictGet k (dictSet k v d) = some v := by
  intro d
  induction d with
  | vDictCons k' v' rest _ ih =>
    by_cases h : k' = k
    · simp [dictSet, h, dictGet]
    · simp [dictSet, h, dictGet, ih]
  | vNone => simp [dictSet, dictGet]
  | vBool b => simp [dictSet, dictGet]
  | vStr s => simp [dictSet, dictGet]
  | vStrList xs => simp [dictSet, dictGet]
  | vDictNil => simp [dictSet, dictGet]

/-- Assignment to a different key leaves a lookup unchanged. -/
theorem dictGet_dictSet_ne (k k' : String) (v : PyVal) (h : k' ≠ k) :
    ∀ d, dictGet k (dictSet k' v d) = dictGet k d := by
  intro d
  induction d with
  | vDictCons k2 v2 rest _ ih =>
    by_cases h2 : k2 = k'
    · subst h2; simp [dictSet, dictGet, h]
    · by_cases h3 : k2 = k
      · subst h3
        have hkk : ¬k2 = k' := h2
        simp [dictSet, hkk, dictGet]
      · simp [dictSet, h2, dictGet, h3, ih]
  | vNone => simp [dictSet, dictGet, h]
  | vBool b => simp [dictSet, dictGet, h]
  | vStr s => simp [dictSet, dictGet, h]
  | vStrList xs => simp [dictSet, dictGet, h]
  | vDictNil => simp [dictSet, dictGet, h]

/-- `optionMapList` on a success: the result has one element per input, each
the image of the corresponding input. -/
theorem optionMapList_spec {α β : Type} (f : α → Option β) (a₀ : α) (b₀ : β) :
    ∀ (l : List α) (r : List β), optionMapList f l = some r →
      r.length = l.length ∧
      ∀ i, i < l.length → f (l.getD i a₀) = some (r.getD i b₀) := by
  intro l
  induction l with
  | nil =>
    intro r h
    simp only [optionMapList, Option.some_inj] at h
    subst h
    exact ⟨rfl, fun i hi => absurd hi (Nat.not_lt_zero i)⟩
  | cons a as ih =>
    intro r h
    simp only [optionMapList] at h
    cases hfa : f a with
    | none => rw [hfa] at h; exact absurd h (by simp)
    | some b =>
      rw [hfa] at h
      cases hrec : optionMapList f as with
      | none => rw [hrec] at h; exact absurd h (by simp)
      | some rs =>
        rw [hrec] at h
        have h' : b :: rs = r := by simpa using h
        subst h'
        obtain ⟨hlen, hpt⟩ := ih rs hrec
        refine ⟨by simp [hlen], ?_⟩
        intro i hi
        cases i with
        | zero => simpa using hfa
        | succ j =>
          simp only [List.getD_cons_succ]
          exact hpt j (Nat.lt_of_succ_lt_succ hi)

/-- A successful payload is the document with the five normalized fields
assigned on top. -/
theorem mkUpdate_shape (gc : List (String × List PyVal)) (doc u : PyVal)
    (h : mkUpdate gc doc = some u) :
    ∃ g a c subs crs, genderOf doc = some g ∧ ageOf doc = some a ∧
      collegeOf gc doc = some c ∧
      u = dictSet "course_types" (.vStrList crs)
        (dictSet "subjects" (.vStrList subs)
          (dictSet "college" (.vStr c)
            (dictSet "age_group" (.vStr a)
              (dictSet "gender" (.vStr g) doc)))) := by
  unfold mkUpdate at h
  simp only [bind, Option.bind_eq_some, Option.some_inj] at h
  obtain ⟨g, hg, a, ha, c, hc, sfOpt, hsf, t1, ht1, t2, ht2, hu⟩ := h
  exact ⟨g, a, c, _, _, hg, ha, hc, hu.symm⟩

/-- No variation of the list equals the candidate case-insensitively
(non-strings hold vacuously; they would raise before the comparison). -/
def noLowerMatch (x : String) (v : PyVal) : Bool :=
  match v with
  | .vStr sv => !(lowerStr x == lowerStr sv)
  | _ => true

/-- If no variation matches case-insensitively, the lowercased candidate is
not among the lowercased variations. -/
theorem lowerAll_not_contains (x : String) :
    ∀ (vars : List PyVal) (lvs : List String),
      lowerAll vars = some lvs →
      (∀ v ∈ vars, noLowerMatch x v = true) →
      lvs.contains (lowerStr x) = false := by
  intro vars
  induction vars with
  | nil =>
    intro lvs h _
    simp only [lowerAll, Option.some_inj] at h
    subst h
    rfl
  | cons v vs ih =>
    intro lvs h hall
    cases v with
    | vStr s =>
      simp only [lowerAll] at h
      cases hrec : lowerAll vs with
      | none => rw [hrec] at h; exact absurd h (by simp)
      | some ls =>
        rw [hrec] at h
        have h' : lowerStr s :: ls = lvs := by simpa using h
        subst h'
        have hv : ¬(lowerStr x == lowerStr s) = true :=
          by simpa [noLowerMatch] using hall (.vStr s) (List.mem_cons_self _ _)
        have hrest := ih ls hrec (fun w hw => hall w (List.mem_cons_of_mem _ hw))
        simp only [List.contains_cons, hrest, Bool.or_false]
        have : lowerStr x ≠ lowerStr s := by
          intro he
          exact hv (by rw [he]; exact beq_self_eq_true _)
        exact beq_eq_false_iff_ne.mpr this
    | vNone => exact absurd h (by simp [lowerAll])
    | vBool b => exact absurd h (by simp [lowerAll])
    | vStrList xs => exact absurd h (by simp [lowerAll])
    | vDictNil => exact absurd h (by simp [lowerAll])
    | vDictCons k w r => exact absurd h (by simp [lowerAll])

/-- When the stripped college matches no cluster variation, a successful
scan returns it unchanged. -/
theorem collegeScan_nomatch (oc : String) :
    ∀ (clusters : List (String × List PyVal)) (r : String),
      collegeScan oc clusters = some r →
      (∀ e ∈ clusters, ∀ v ∈ e.2, noLowerMatch oc v = true) →
      r = oc := by
  intro clusters
  induction clusters with
  | nil =>
    intro r h _
    simp only [collegeScan, Option.some_inj] at h
    exact h.symm
  | cons e rest ih =>
    intro r h hall
    obtain ⟨name, vars⟩ := e
    simp only [collegeScan] at h
    cases hla : lowerAll vars with
    | none => rw [hla] at h; exact absurd h (by simp)
    | some lvs =>
      rw [hla] at h
      have hnc := lowerAll_not_contains oc vars lvs hla
        (fun v hv => hall (name, vars) (List.mem_cons_self _ _) v hv)
      have h2 : (if lvs.contains (lowerStr oc) = true then some name
          else collegeScan oc rest) = some r := h
      rw [hnc] at h2
      simp only [Bool.false_eq_true, if_false] at h2
      exact ih r h2 (fun e2 he2 v hv => hall e2 (List.mem_cons_of_mem _ he2) v hv)

/-- C9 counterexample: the per-document update payload of the student stats
generator is a full copy of the document (`update_doc = doc.copy()`), not a
reduced one — an unrelated `"foo"` field of the input document survives into
its payload. The narrowing to username plus the normalized fields happens
only later, in `update_documents`. -/
theorem C9_counterexample :
    (generate_update_docs [pyDict [("username", .vStr "u1"), ("foo", .vStr "bar")]]).map
      (fun us => dictGet "foo" (us.getD 0 .vDictNil)) = some (some (.vStr "bar")) := by
  decide

/-- C9 (amended): when the student `generate_stats_with_normalised_values`
succeeds it emits exactly one update payload per input document, and each
payload is a full copy of its document: every field other than the five
normalized ones (`gender`, `age_group`, `college`, `subjects`,
`course_types`) keeps its original value. -/
theorem C9_update_payloads (documents us : List PyVal)
    (h : generate_update_docs documents = some us) :
    us.length = documents.length ∧
    ∀ i, i < documents.length → ∀ k : String,
      k ≠ "gender" → k ≠ "age_group" → k ≠ "college" →
      k ≠ "subjects" → k ≠ "course_types" →
      dictGet k (us.getD i .vDictNil) = dictGet k (documents.getD i .vDictNil) := by
  unfold generate_update_docs at h
  obtain ⟨hlen, hpt⟩ := optionMapList_spec _ PyVal.vDictNil PyVal.vDictNil documents us h
  refine ⟨hlen, ?_⟩
  intro i hi k h1 h2 h3 h4 h5
  obtain ⟨g, a, c, subs, crs, _, _, _, hu⟩ := mkUpdate_shape _ _ _ (hpt i hi)
  rw [hu,
    dictGet_dictSet_ne k "course_types" _ (Ne.symm h5),
    dictGet_dictSet_ne k "subjects" _ (Ne.symm h4),
    dictGet_dictSet_ne k "college" _ (Ne.symm h3),
    dictGet_dictSet_ne k "age_group" _ (Ne.symm h2),
    dictGet_dictSet_ne k "gender" _ (Ne.symm h1)]

/-- C9 witness: a one-document batch whose document carries an extra
`"quux"` field; the payload keeps it unchanged. -/
theorem C9_update_payloads_witness :
    (generate_update_docs [pyDict [("username", .vStr "zz"), ("quux", .vStr "kept")]] =
      some ((generate_update_docs
        [pyDict [("username", .vStr "zz"), ("quux", .vStr "kept")]]).getD [])) ∧
    dictGet "quux"
        (((generate_update_docs
          [pyDict [("username", .vStr "zz"), ("quux", .vStr "kept")]]).getD []).getD 0
          .vDictNil) =
      dictGet "quux"
        (([pyDict [("username", .vStr "zz"), ("quux", .vStr "kept")]] : List PyVal).getD 0
          .vDictNil) :=
  ⟨by decide,
   (C9_update_payloads [pyDict [("username", .vStr "zz"), ("quux", .vStr "kept")]] _
     (by decide)).2 0 (by decide) "quux"
     (by decide) (by decide) (by decide) (by decide) (by decide)⟩

/-- C10: in the student `generate_stats_with_normalised_values`, the
payload's `college` is obtained by looking the document's stripped college
string up in the cluster info produced by normalising the GENDER field; when
the stripped string matches no gender cluster's variations
(case-insensitively), it passes into the payload unchanged. -/
theorem C10_college_gender_clusters (documents us : List PyVal)
    (h : generate_update_docs documents = some us)
    (i : Nat) (hi : i < documents.length) (s : String)
    (hcol : dictGet "college" (documents.getD i .vDictNil) = some (.vStr s))
    (hs : s ≠ "")
    (hnomatch : ∀ e ∈ (student_normalise_field_values documents "gender" (some "gender")).2.2,
      ∀ v ∈ e.2, noLowerMatch (pyStrip s) v = true) :
    dictGet "college" (us.getD i .vDictNil) = some (.vStr (pyStrip s)) := by
  unfold generate_update_docs at h
  obtain ⟨hlen, hpt⟩ := optionMapList_spec _ PyVal.vDictNil PyVal.vDictNil documents us h
  obtain ⟨g, a, c, subs, crs, _, _, hc, hu⟩ := mkUpdate_shape _ _ _ (hpt i hi)
  rw [hu,
    dictGet_dictSet_ne "college" "course_types" _ (by decide),
    dictGet_dictSet_ne "college" "subjects" _ (by decide),
    dictGet_dictSet_self]
  unfold collegeOf at hc
  rw [hcol] at hc
  have hc2 : (if truthy (.vStr s) = true then
      collegeScan (pyStrip s)
        (student_normalise_field_values documents "gender" (some "gender")).2.2
    else some "Unknown") = some c := hc
  have ht : truthy (.vStr s) = true := by simp [truthy, hs]
  rw [if_pos ht] at hc2
  rw [collegeScan_nomatch (pyStrip s) _ c hc2 hnomatch]

/-- C10 witness: a document whose college `"Fareham"` matches no variation
of the (single) gender cluster `"Male"`, so the payload keeps `"Fareham"`. -/
theorem C10_college_gender_clusters_witness :
    (dictGet "college" (([pyDict [("username", .vStr "u"), ("college", .vStr "Fareham"),
        ("gender", .vStr "Male")]] : List PyVal).getD 0 .vDictNil) =
      some (.vStr "Fareham")) ∧
    dictGet "college"
        (((generate_update_docs [pyDict [("username", .vStr "u"),
          ("college", .vStr "Fareham"), ("gender", .vStr "Male")]]).getD []).getD 0
          .vDictNil) =
      some (.vStr (pyStrip "Fareham")) :=
  ⟨by decide,
   C10_college_gender_clusters
     [pyDict [("username", .vStr "u"), ("college", .vStr "Fareham"),
       ("gender", .vStr "Male")]] _
     (by decide) 0 (by decide) "Fareham" (by decide) (by decide) (by decide)⟩

/-! ## Analysis of `find_longest_match` on the diagonal

When both sequences are the same list `l`, the dynamic programme of
`find_longest_match` always holds a best block lying on the main diagonal,
and the two extension loops then grow it to the whole string. `dAct p` says
the character at position `p` survives the autojunk purge of `b2j`; `dval p`
is the length of the run of active positions ending at `p`, which is exactly
the diagonal entry of the programme's `j2len` row. -/

/-- Position `p` is active: its character is not purged from `b2j l`. -/
def dAct (l : List Char) (p : Nat) : Prop :=
  ¬(200 ≤ l.length ∧ l.length / 100 + 1 < l.count (charAt l p))

instance (l : List Char) (p : Nat) : Decidable (dAct l p) :=
  inferInstanceAs (Decidable (¬(200 ≤ l.length ∧ l.length / 100 + 1 < l.count (charAt l p))))

/-- Length of the run of active positions ending at `p`. -/
def dval (l : List Char) : Nat → Nat
  | 0 => if dAct l 0 then 1 else 0
  | p + 1 => if dAct l (p + 1) then dval l p + 1 else 0

/-- The diagonal entry of the previous row: `dval (i-1)`, and `0` for the
first row. -/
def prevD (l : List Char) : Nat → Nat
  | 0 => 0
  | p + 1 => dval l p

theorem dval_le (l : List Char) : ∀ p, dval l p ≤ p + 1
  | 0 => by unfold dval; split <;> omega
  | p + 1 => by
    unfold dval
    have := dval_le l p
    split <;> omega

theorem dval_act (l : List Char) (p : Nat) (h : dAct l p) :
    dval l p = prevD l p + 1 := by
  cases p with
  | zero => simp [dval, prevD, h]
  | succ q => simp [dval, prevD, h]

theorem dval_inact (l : List Char) (p : Nat) (h : ¬dAct l p) : dval l p = 0 := by
  cases p with
  | zero => simp [dval, h]
  | succ q => simp [dval, h]

theorem dAct_congr (l : List Char) {i j : Nat} (h : charAt l j = charAt l i)
    (ha : dAct l i) : dAct l j := by
  unfold dAct at ha ⊢
  rw [h]
  exact ha

/-- The in-range columns of row `i` when `a = b = l`: empty for a purged
character, else all positions of the character of `i`. -/
theorem selfCols (l : List Char) (i : Nat) :
    (b2j l (charAt l i)).filter (fun j => decide (0 ≤ j ∧ j < l.length)) =
      if dAct l i then
        (List.range l.length).filter (fun j => decide (charAt l j = charAt l i))
      else [] := by
  unfold b2j dAct
  by_cases h : 200 ≤ l.length ∧ l.length / 100 + 1 < l.count (charAt l i)
  · simp [h]
  · rw [if_neg h, if_pos h]
    rw [List.filter_filter]
    apply List.filter_congr
    intro j hj
    have : j < l.length := List.mem_range.mp hj
    simp [this]

/-- The value computed at a column never exceeds the mirrored run length of
that column. -/
theorem kle_col (l : List Char) (i j : Nat) (R : Nat → Nat)
    (hR : ∀ x, R x ≤ dval l x) (hacti : dAct l i)
    (hmatch : charAt l j = charAt l i) :
    (if j = 0 then 0 else R (j - 1)) + 1 ≤ dval l j := by
  have hactj : dAct l j := dAct_congr l hmatch hacti
  cases j with
  | zero => rw [dval_act l 0 hactj]; simp [prevD]
  | succ q =>
    rw [dval_act l (q + 1) hactj, if_neg (Nat.succ_ne_zero q)]
    have := hR q
    simp only [prevD, Nat.add_sub_cancel]
    omega

/-- The value computed at a column never exceeds the current diagonal run
length. -/
theorem kle_diag (l : List Char) (i j : Nat) (R : Nat → Nat)
    (hRD : ∀ x, R x ≤ prevD l i) (hacti : dAct l i) :
    (if j = 0 then 0 else R (j - 1)) + 1 ≤ dval l i := by
  rw [dval_act l i hacti]
  cases j with
  | zero => rw [if_pos rfl]; omega
  | succ q =>
    rw [if_neg (Nat.succ_ne_zero q)]
    have := hRD q
    simp only [Nat.add_sub_cancel]
    omega

/-- `flmCol` without a best-block update. -/
theorem flmCol_noupdate (i j : Nat) (R : Nat → Nat)
    (st : (Nat × Nat × Nat) × (Nat → Nat))
    (hk : (if j = 0 then 0 else R (j - 1)) + 1 ≤ st.1.2.2) :
    flmCol i R st j =
      (st.1, fun x => if x = j then (if j = 0 then 0 else R (j - 1)) + 1 else st.2 x) := by
  simp only [flmCol]
  rw [if_neg (Nat.not_lt.mpr hk)]

/-- Columns left of the diagonal never update the best block: their values
are bounded by earlier diagonal runs already recorded in `bestsize`. -/
theorem phaseA (l : List Char) (i : Nat) (R : Nat → Nat)
    (hR : ∀ x, R x ≤ dval l x) (hRD : ∀ x, R x ≤ prevD l i) (hacti : dAct l i) :
    ∀ (js : List Nat), (∀ j ∈ js, j < i ∧ charAt l j = charAt l i) →
    ∀ (st : (Nat × Nat × Nat) × (Nat → Nat)),
      (∀ m, m < i → dval l m ≤ st.1.2.2) →
      (∀ x, st.2 x ≤ dval l x) → (∀ x, st.2 x ≤ dval l i) →
      ∃ nR, js.foldl (flmCol i R) st = (st.1, nR) ∧
        (∀ x, nR x ≤ dval l x) ∧ (∀ x, nR x ≤ dval l i) := by
  intro js
  induction js with
  | nil =>
    intro _ st _ h4 h5
    exact ⟨st.2, rfl, h4, h5⟩
  | cons j js ih =>
    intro hmem st h3 h4 h5
    obtain ⟨hji, hjm⟩ := hmem j (List.mem_cons_self _ _)
    have hkcol := kle_col l i j R hR hacti hjm
    have hkbs : (if j = 0 then 0 else R (j - 1)) + 1 ≤ st.1.2.2 :=
      le_trans hkcol (h3 j hji)
    have hkdiag := kle_diag l i j R hRD hacti
    rw [List.foldl_cons, flmCol_noupdate i j R st hkbs]
    exact ih (fun x hx => hmem x (List.mem_cons_of_mem _ hx))
      (_, _) h3
      (fun x => by by_cases hx : x = j <;> simp [hx, hkcol, h4 x])
      (fun x => by by_cases hx : x = j <;> simp [hx, hkdiag, h5 x])

/-- Columns right of the diagonal never update the best block either, and
they leave the diagonal entry of the new row untouched. -/
theorem phaseC (l : List Char) (i : Nat) (R : Nat → Nat)
    (hR : ∀ x, R x ≤ dval l x) (hRD : ∀ x, R x ≤ prevD l i) (hacti : dAct l i) :
    ∀ (js : List Nat), (∀ j ∈ js, j ≠ i ∧ charAt l j = charAt l i) →
    ∀ (st : (Nat × Nat × Nat) × (Nat → Nat)),
      dval l i ≤ st.1.2.2 →
      (∀ x, st.2 x ≤ dval l x) → (∀ x, st.2 x ≤ dval l i) →
      ∃ nR, js.foldl (flmCol i R) st = (st.1, nR) ∧
        (∀ x, nR x ≤ dval l x) ∧ (∀ x, nR x ≤ dval l i) ∧ nR i = st.2 i := by
  intro js
  induction js with
  | nil =>
    intro _ st _ h4 h5
    exact ⟨st.2, rfl, h4, h5, rfl⟩
  | cons j js ih =>
    intro hmem st hbs h4 h5
    obtain ⟨hji, hjm⟩ := hmem j (List.mem_cons_self _ _)
    have hkcol := kle_col l i j R hR hacti hjm
    have hkdiag := kle_diag l i j R hRD hacti
    have hkbs : (if j = 0 then 0 else R (j - 1)) + 1 ≤ st.1.2.2 :=
      le_trans hkdiag hbs
    rw [List.foldl_cons, flmCol_noupdate i j R st hkbs]
    obtain ⟨nR, heq, hb1, hb2, hbi⟩ := ih (fun x hx => hmem x (List.mem_cons_of_mem _ hx))
      (st.1, fun x => if x = j then (if j = 0 then 0 else R (j - 1)) + 1 else st.2 x) hbs
      (fun x => by by_cases hx : x = j <;> simp [hx, hkcol, h4 x])
      (fun x => by by_cases hx : x = j <;> simp [hx, hkdiag, h5 x])
    refine ⟨nR, heq, hb1, hb2, ?_⟩
    rw [hbi]
    simp [Ne.symm hji]

/-- Invariant of the dynamic programme before processing row `i`: the best
block lies on the diagonal, fits in the string, dominates all earlier
diagonal runs, and the previous row is bounded by the mirrored runs with an
exact diagonal entry. -/
def RInv (l : List Char) (i : Nat) (st : (Nat × Nat × Nat) × (Nat → Nat)) : Prop :=
  st.1.1 = st.1.2.1 ∧ st.1.1 + st.1.2.2 ≤ l.length ∧
  (∀ m, m < i → dval l m ≤ st.1.2.2) ∧
  (∀ x, st.2 x ≤ dval l x) ∧ (∀ x, st.2 x ≤ prevD l i) ∧
  (∀ p, i = p + 1 → st.2 p = dval l p)

/-- One row of the programme preserves the diagonal invariant. -/
theorem flmRow_self (l : List Char) (i : Nat) (hi : i < l.length)
    (st : (Nat × Nat × Nat) × (Nat → Nat)) (hInv : RInv l i st) :
    RInv l (i + 1) (flmRow (b2j l) l 0 l.length st i) := by
  obtain ⟨h1, h2, h3, h4, h5, h6⟩ := hInv
  unfold flmRow
  rw [selfCols]
  by_cases hact : dAct l i
  case neg =>
    rw [if_neg hact]
    simp only [List.foldl_nil]
    have hz := dval_inact l i hact
    refine ⟨h1, h2, ?_, ?_, ?_, ?_⟩
    · intro m hm
      rcases Nat.lt_succ_iff_lt_or_eq.mp hm with h | h
      · exact h3 m h
      · rw [h, hz]; exact Nat.zero_le _
    · intro x; exact Nat.zero_le _
    · intro x; exact Nat.zero_le _
    · intro q hq
      have hqi : q = i := by omega
      rw [hqi, hz]
  case pos =>
    rw [if_pos hact]
    have hmem_i : i ∈ (List.range l.length).filter
        (fun j => decide (charAt l j = charAt l i)) :=
      List.mem_filter.mpr ⟨List.mem_range.mpr hi, by simp⟩
    obtain ⟨A, C, hAC⟩ := List.append_of_mem hmem_i
    have hsorted : (A ++ i :: C).Pairwise (· < ·) := by
      rw [← hAC]
      exact (List.pairwise_lt_range _).filter _
    have hmemAll : ∀ j ∈ A ++ i :: C, charAt l j = charAt l i := by
      intro j hj
      have hj2 : j ∈ (List.range l.length).filter
          (fun x => decide (charAt l x = charAt l i)) := by rw [hAC]; exact hj
      have := (List.mem_filter.mp hj2).2
      simpa using this
    obtain ⟨hpwA, hpwIC, hcross⟩ := List.pairwise_append.mp hsorted
    have hAlt : ∀ j ∈ A, j < i := fun j hj => hcross j hj i (List.mem_cons_self _ _)
    have hCgt : ∀ j ∈ C, i < j := (List.pairwise_cons.mp hpwIC).1
    rw [hAC, List.foldl_append]
    obtain ⟨nR1, heq1, hA1, hA2⟩ := phaseA l i st.2 h4 h5 hact A
      (fun j hj => ⟨hAlt j hj, hmemAll j (List.mem_append_left _ hj)⟩)
      (st.1, fun _ => 0) h3 (fun _ => Nat.zero_le _) (fun _ => Nat.zero_le _)
    rw [heq1, List.foldl_cons]
    have hkeq : (if i = 0 then 0 else st.2 (i - 1)) + 1 = dval l i := by
      rw [dval_act l i hact]
      cases i with
      | zero => simp [prevD]
      | succ q => simp [prevD, h6 q rfl]
    have hCmem : ∀ j ∈ C, j ≠ i ∧ charAt l j = charAt l i := fun j hj =>
      ⟨Ne.symm (Nat.ne_of_lt (hCgt j hj)),
       hmemAll j (List.mem_append_right _ (List.mem_cons_of_mem _ hj))⟩
    by_cases hup : ((st.1, nR1) : (Nat × Nat × Nat) × (Nat → Nat)).1.2.2 <
        (if i = 0 then 0 else st.2 (i - 1)) + 1
    · have hstep : flmCol i st.2 (st.1, nR1) i =
          ((i + 1 - ((if i = 0 then 0 else st.2 (i - 1)) + 1),
            i + 1 - ((if i = 0 then 0 else st.2 (i - 1)) + 1),
            (if i = 0 then 0 else st.2 (i - 1)) + 1),
           fun x => if x = i then (if i = 0 then 0 else st.2 (i - 1)) + 1 else nR1 x) := by
        simp only [flmCol]
        rw [if_pos hup]
      rw [hstep]
      obtain ⟨nR2, heq2, hC1, hC2, hCi⟩ := phaseC l i st.2 h4 h5 hact C hCmem
        ((i + 1 - ((if i = 0 then 0 else st.2 (i - 1)) + 1),
          i + 1 - ((if i = 0 then 0 else st.2 (i - 1)) + 1),
          (if i = 0 then 0 else st.2 (i - 1)) + 1),
         fun x => if x = i then (if i = 0 then 0 else st.2 (i - 1)) + 1 else nR1 x)
        (Nat.le_of_eq hkeq.symm)
        (fun x => by
          by_cases hx : x = i
          · simp [hx, hkeq, le_refl]
          · simp [hx, hA1 x])
        (fun x => by
          by_cases hx : x = i
          · simp [hx, hkeq, le_refl]
          · simp [hx, hA2 x])
      rw [heq2]
      have hdle := dval_le l i
      have hup2 : st.1.2.2 < (if i = 0 then 0 else st.2 (i - 1)) + 1 := hup
      refine ⟨rfl, ?_, ?_, hC1, ?_, ?_⟩
      · dsimp only
        omega
      · intro m hm
        dsimp only
        rcases Nat.lt_succ_iff_lt_or_eq.mp hm with h | h
        · have := h3 m h
          omega
        · rw [h]
          omega
      · intro x
        simpa [prevD] using hC2 x
      · intro q hq
        have hqi : q = i := by omega
        rw [hqi]
        show nR2 i = dval l i
        rw [hCi]
        simp [hkeq]
    · have hknoup : (if i = 0 then 0 else st.2 (i - 1)) + 1 ≤
          ((st.1, nR1) : (Nat × Nat × Nat) × (Nat → Nat)).1.2.2 := Nat.not_lt.mp hup
      rw [flmCol_noupdate i i st.2 (st.1, nR1) hknoup]
      have hbs : dval l i ≤ st.1.2.2 := by
        rw [← hkeq]
        simpa using hknoup
      obtain ⟨nR2, heq2, hC1, hC2, hCi⟩ := phaseC l i st.2 h4 h5 hact C hCmem
        (st.1, fun x => if x = i then (if i = 0 then 0 else st.2 (i - 1)) + 1 else nR1 x)
        hbs
        (fun x => by
          by_cases hx : x = i
          · simp [hx, hkeq, le_refl]
          · simp [hx, hA1 x])
        (fun x => by
          by_cases hx : x = i
          · simp [hx, hkeq, le_refl]
          · simp [hx, hA2 x])
      rw [heq2]
      refine ⟨h1, h2, ?_, hC1, ?_, ?_⟩
      · intro m hm
        rcases Nat.lt_succ_iff_lt_or_eq.mp hm with h | h
        · exact h3 m h
        · rw [h]; exact hbs
      · intro x
        simpa [prevD] using hC2 x
      · intro q hq
        have hqi : q = i := by omega
        rw [hqi]
        show nR2 i = dval l i
        rw [hCi]
        simp [hkeq]

/-- The invariant is carried over any block of consecutive rows. -/
theorem flmRows_self (l : List Char) :
    ∀ (k s : Nat), s + k ≤ l.length →
    ∀ st, RInv l s st →
      RInv l (s + k) ((List.range' s k).foldl (flmRow (b2j l) l 0 l.length) st) := by
  intro k
  induction k with
  | zero =>
    intro s _ st hInv
    simpa using hInv
  | succ m ih =>
    intro s hs st hInv
    rw [List.range'_succ, List.foldl_cons]
    have hstep := flmRow_self l s (by omega) st hInv
    have := ih (s + 1) (by omega) _ hstep
    rwa [show s + 1 + m = s + (m + 1) from by omega] at this

/-- The dynamic programme of `find_longest_match l l 0 n 0 n` ends with a
diagonal best block that fits in the string. -/
theorem flmDP_self (l : List Char) :
    RInv l l.length (flmDP l (b2j l) 0 l.length 0 l.length) := by
  have hbase : RInv l 0 (((0, 0, 0), fun _ => 0) : (Nat × Nat × Nat) × (Nat → Nat)) := by
    refine ⟨rfl, by simp, ?_, ?_, ?_, ?_⟩
    · intro m hm; omega
    · intro x; exact Nat.zero_le _
    · intro x; exact Nat.zero_le _
    · intro p hp; omega
  have := flmRows_self l l.length 0 (by omega) _ hbase
  simpa [flmDP] using this

/-- The backward extension of a diagonal block reaches the start of the
string. -/
theorem extendBack_self (l : List Char) :
    ∀ (fuel d s : Nat), d ≤ fuel →
      extendBack l l 0 0 fuel (d, d, s) = (0, 0, s + d) := by
  intro fuel
  induction fuel with
  | zero =>
    intro d s hd
    have hd0 : d = 0 := Nat.le_zero.mp hd
    subst hd0
    rfl
  | succ f ih =>
    intro d s hd
    cases d with
    | zero =>
      show (if 0 < 0 ∧ 0 < 0 ∧ charAt l (0 - 1) = charAt l (0 - 1) then
        extendBack l l 0 0 f (0 - 1, 0 - 1, s + 1) else (0, 0, s)) = (0, 0, s + 0)
      rw [if_neg (by omega), Nat.add_zero]
    | succ e =>
      show (if 0 < e + 1 ∧ 0 < e + 1 ∧ charAt l (e + 1 - 1) = charAt l (e + 1 - 1) then
        extendBack l l 0 0 f (e + 1 - 1, e + 1 - 1, s + 1) else (e + 1, e + 1, s)) =
        (0, 0, s + (e + 1))
      rw [if_pos ⟨by omega, by omega, rfl⟩]
      simp only [Nat.add_sub_cancel]
      rw [ih e (s + 1) (by omega)]
      congr 2
      omega

/-- The forward extension of a prefix block reaches the end of the
string. -/
theorem extendFwd_self (l : List Char) :
    ∀ (fuel s : Nat), s ≤ l.length → l.length - s ≤ fuel →
      extendFwd l l l.length l.length fuel (0, 0, s) = (0, 0, l.length) := by
  intro fuel
  induction fuel with
  | zero =>
    intro s h1 h2
    have : s = l.length := by omega
    subst this
    rfl
  | succ f ih =>
    intro s h1 h2
    show (if 0 + s < l.length ∧ 0 + s < l.length ∧
        charAt l (0 + s) = charAt l (0 + s) then
      extendFwd l l l.length l.length f (0, 0, s + 1) else (0, 0, s)) = (0, 0, l.length)
    by_cases hs : s < l.length
    · rw [if_pos ⟨by omega, by omega, rfl⟩]
      exact ih (s + 1) (by omega) (by omega)
    · rw [if_neg (by omega)]
      have : s = l.length := by omega
      rw [this]

/-- `find_longest_match` of a list against itself on the full range returns
the whole string as a single block. -/
theorem flm_self (l : List Char) :
    find_longest_match l l 0 l.length 0 l.length = (0, 0, l.length) := by
  obtain ⟨h1, h2, _, _, _, _⟩ := flmDP_self l
  unfold find_longest_match
  rcases hdp : (flmDP l (b2j l) 0 l.length 0 l.length).1 with ⟨d, bj, s⟩
  rw [hdp] at h1 h2
  dsimp only at h1 h2
  subst h1
  show extendFwd l l l.length l.length l.length
    (extendBack l l 0 0 (d, d, s).1 (d, d, s)) = (0, 0, l.length)
  dsimp only
  rw [extendBack_self l d d s (le_refl d),
    extendFwd_self l l.length (s + d) (by omega) (by omega)]

/-- The matching blocks of a list against itself cover the whole string. -/
theorem matchTotal_self (l : List Char) (fuel : Nat) :
    matchTotal l l (fuel + 1) 0 l.length 0 l.length = l.length := by
  show (let m := find_longest_match l l 0 l.length 0 l.length
    if m.2.2 = 0 then 0
    else m.2.2
      + (if 0 < m.1 ∧ 0 < m.2.1 then matchTotal l l fuel 0 m.1 0 m.2.1 else 0)
      + (if m.1 + m.2.2 < l.length ∧ m.2.1 + m.2.2 < l.length then
          matchTotal l l fuel (m.1 + m.2.2) l.length (m.2.1 + m.2.2) l.length else 0)) =
    l.length
  rw [flm_self]
  by_cases hn : l.length = 0
  · simp [hn]
  · simp only
    rw [if_neg hn, if_neg (by omega), if_neg (by omega)]
    omega

unseal Rat.mul Rat.inv Rat.add Rat.sub in
/-- C4 counterexample: the difflib-based ratio is not symmetric. For
`a = "pq#rs$tu"` and `b = "rs%tu&pq"`, `similarity_ratio a b = 1/4` while
`similarity_ratio b a = 1/2` (the greedy longest-block recursion discards
different amounts of material in the two directions). -/
theorem C4_counterexample :
    similarity_ratio "pq#rs$tu" "rs%tu&pq" = 1 / 4 ∧
    similarity_ratio "rs%tu&pq" "pq#rs$tu" = 1 / 2 ∧
    similarity_ratio "pq#rs$tu" "rs%tu&pq" ≠ similarity_ratio "rs%tu&pq" "pq#rs$tu" := by
  refine ⟨by decide, by decide, by decide⟩

/-- C4 (amended): on the diagonal the claim holds exactly — for every
string `a`, `similarity_ratio a a = 1`. -/
theorem C4_self_ratio (a : String) : similarity_ratio a a = 1 := by
  unfold similarity_ratio ratioQ
  by_cases h : a.data.length + a.data.length = 0
  · rw [if_pos h]
  · rw [if_neg h, matchTotal_self]
    have hn : (a.data.length : ℚ) ≠ 0 := Nat.cast_ne_zero.mpr (by omega)
    rw [div_eq_one_iff_eq (by
      intro hc
      apply hn
      have : (a.data.length : ℚ) + (a.data.length : ℚ) = 0 := hc
      linarith)]
    ring

end Spec2Proof
